import Mathlib

/-!
Shallow embedding of `src/Rekordbox/rekordbox_analyse.py` (the library
reconciliation and analysis engine) and proofs about it.

Modelling conventions:
* Python `float` is modelled exactly: finite values as rationals plus the
  special values `inf`/`-inf`/`nan` (`PyFloat`); IEEE rounding of decimal
  literals is out of scope for the claims below, which only compare values
  that are exactly representable.
* Python strings are Lean `String`s; the string operations the engine uses
  (`strip`, `lower`, `replace`, `startswith`, regex fragments) are modelled
  over their character lists for the ASCII range the claims exercise.
* `os.sep` is a parameter `sep` (the host platform's separator string).
* Fallible Python operations are `Option`-valued; a `try/except` that
  substitutes a default becomes `Option.getD`.
-/

set_option maxRecDepth 8000

namespace Rekordbox

/-- Model of a Python `float` value: an exact rational, a signed infinity,
or `nan`. -/
inductive PyFloat where
  | finite (q : ℚ)
  | inf (neg : Bool)
  | nan
deriving DecidableEq

/-- Python values that reach the defensive numeric parsers: `None`, an
`int`, a `float`, or a `str`. -/
inductive PyVal where
  | pnone
  | pint (n : ℤ)
  | pfloat (f : PyFloat)
  | pstr (s : String)
deriving DecidableEq

/-- ASCII whitespace recognised by Python's `str.strip()`. -/
def pyWs (c : Char) : Bool :=
  c = ' ' || c = '\t' || c = '\n' || c = '\r' || c = '\x0b' || c = '\x0c'

/-- `str.strip()` on a character list. -/
def pyStripChars (l : List Char) : List Char :=
  ((l.dropWhile pyWs).reverse.dropWhile pyWs).reverse

/-- Python `str.strip()` (ASCII whitespace). -/
def pyStrip (s : String) : String := ⟨pyStripChars s.data⟩

/-- Python `str.lower()` (ASCII range). -/
def pyLower (s : String) : String := ⟨s.data.map Char.toLower⟩

def isAsciiDigit (c : Char) : Bool := '0' ≤ c && c ≤ '9'

def digitVal (c : Char) : Nat := c.toNat - '0'.toNat

/-- Consume a maximal run of decimal digits with single underscores allowed
between digits (Python numeric-literal grammar); returns the accumulated
value, the number of digits consumed, and the remaining input. The fuel is
a structural-termination device; every recursive call consumes at least one
character, so `fuel = length` (as used by `digitsU`) never runs out. -/
def digitsUF (v : Nat) (n : Nat) : Nat → List Char → Nat × Nat × List Char
  | _, [] => (v, n, [])
  | 0, l => (v, n, l)
  | fuel + 1, c :: '_' :: c2 :: rest2 =>
    if isAsciiDigit c then
      if isAsciiDigit c2 then digitsUF (v * 10 + digitVal c) (n + 1) fuel (c2 :: rest2)
      else (v * 10 + digitVal c, n + 1, '_' :: c2 :: rest2)
    else (v, n, c :: '_' :: c2 :: rest2)
  | fuel + 1, c :: rest =>
    if isAsciiDigit c then digitsUF (v * 10 + digitVal c) (n + 1) fuel rest
    else (v, n, c :: rest)

def digitsU (v : Nat) (n : Nat) (l : List Char) : Nat × Nat × List Char :=
  digitsUF v n l.length l

/-- Optional exponent part of a Python float literal: scale the mantissa
`m / 10^k`, staying in integer arithmetic. -/
def parseExpNum (m : ℕ) (k : ℕ) : List Char → Option (ℤ × ℕ)
  | [] => some ((m : ℤ), k)
  | e :: r =>
    if e = 'e' || e = 'E' then
      let (eneg, r1) :=
        match r with
        | '+' :: r' => (false, r')
        | '-' :: r' => (true, r')
        | _ => (false, r)
      let (ev, nE, r2) := digitsU 0 0 r1
      if nE = 0 || !r2.isEmpty then Option.none
      else if eneg then some ((m : ℤ), k + ev)
      else some (((m * 10 ^ ev : ℕ) : ℤ), k)
    else Option.none

/-- Unsigned numeric part of a Python float literal, as a pair `(m, k)`
denoting `m / 10^k`. -/
def parseNum (l : List Char) : Option (ℤ × ℕ) :=
  let (ip, nI, r1) := digitsU 0 0 l
  match r1 with
  | '.' :: r1' =>
    let (fp, nF, r2) := digitsU 0 0 r1'
    if nI + nF = 0 then Option.none
    else parseExpNum (ip * 10 ^ nF + fp) nF r2
  | _ => if nI = 0 then Option.none else parseExpNum ip 0 r1

/-- Case-insensitive comparison against a lowercase word. -/
def ciEq (l : List Char) (w : List Char) : Bool := l.map Char.toLower == w

/-- Model of Python's `float(s)` string conversion: returns the value when
`s` parses (sign, digits with underscores, decimal point, exponent, or the
`inf`/`infinity`/`nan` keywords) and `none` when Python would raise. -/
def pyFloatParse (s : String) : Option PyFloat :=
  let l := pyStripChars s.data
  let (neg, l1) :=
    match l with
    | '+' :: r => (false, r)
    | '-' :: r => (true, r)
    | _ => (false, l)
  if ciEq l1 ['i', 'n', 'f'] || ciEq l1 ['i', 'n', 'f', 'i', 'n', 'i', 't', 'y'] then
    some (PyFloat.inf neg)
  else if ciEq l1 ['n', 'a', 'n'] then
    some PyFloat.nan
  else
    (parseNum l1).map (fun p =>
      PyFloat.finite (mkRat (if neg then -p.1 else p.1) (10 ^ p.2)))

/-- Truncation toward zero, as Python's `int(float)`. -/
def ratTrunc (q : ℚ) : ℤ :=
  if 0 ≤ q.num then ((q.num.natAbs / q.den : ℕ) : ℤ)
  else -((q.num.natAbs / q.den : ℕ) : ℤ)

/-- Floor of a rational (kernel-friendly form). -/
def ratFloorZ (q : ℚ) : ℤ :=
  if 0 ≤ q.num then ((q.num.natAbs / q.den : ℕ) : ℤ)
  else -(((q.num.natAbs + q.den - 1) / q.den : ℕ) : ℤ)

/-- Python 3 `round()` on a finite float: round half to even. The
fractional part `q - f` is `rem / den`, compared against `1/2` by
cross-multiplication so the definition evaluates by integer arithmetic. -/
def roundHalfEven (q : ℚ) : ℤ :=
  let f := ratFloorZ q
  let rem := q.num - f * (q.den : ℤ)
  if rem * 2 < (q.den : ℤ) then f
  else if (q.den : ℤ) < rem * 2 then f + 1
  else if f % 2 = 0 then f else f + 1

/-- `safe_int` from the source: defensively coerce a value to `int`,
returning the default on any failure (the `try/except` body is modelled by
`Option`-valued conversions). -/
def safe_int (v : PyVal) (d : ℤ) : ℤ :=
  match v with
  | .pnone => d
  | .pint n => n
  | .pfloat f =>
    -- str(v) round-trips a float exactly, so int(float(str(v))) truncates
    -- a finite value and raises (hence defaults) on inf/nan
    match f with
    | .finite q => ratTrunc q
    | _ => d
  | .pstr s =>
    let s' := pyStrip s
    if s' = "" then d
    else
      match pyFloatParse s' with
      | some (.finite q) => ratTrunc q
      | _ => d

/-- `safe_float` from the source: defensively coerce a value to `float`,
returning the default on any failure. -/
def safe_float (v : PyVal) (d : PyFloat) : PyFloat :=
  match v with
  | .pnone => d
  | .pint n => .finite (n : ℚ)
  | .pfloat f => f
  | .pstr s =>
    let s' := pyStrip s
    if s' = "" then d
    else (pyFloatParse s').getD d

/-- The number Python's `int()` conversion chain yields for a value, when it
yields one (spec-side description of "the parsed number"). -/
def intResult (v : PyVal) : Option ℤ :=
  match v with
  | .pnone => Option.none
  | .pint n => some n
  | .pfloat f =>
    match f with
    | .finite q => some (ratTrunc q)
    | _ => Option.none
  | .pstr s =>
    match pyFloatParse (pyStrip s) with
    | some (.finite q) => some (ratTrunc q)
    | _ => Option.none

/-- The number Python's `float()` conversion yields for a value, when it
yields one (spec-side description of "the parsed number"). -/
def floatResult (v : PyVal) : Option PyFloat :=
  match v with
  | .pnone => Option.none
  | .pint n => some (.finite (n : ℚ))
  | .pfloat f => some f
  | .pstr s => pyFloatParse (pyStrip s)

def asciiAlpha (c : Char) : Bool :=
  ('A' ≤ c && c ≤ 'Z') || ('a' ≤ c && c ≤ 'z')

def hexDigVal (c : Char) : Option Nat :=
  if isAsciiDigit c then some (digitVal c)
  else if 'a' ≤ c && c ≤ 'f' then some (c.toNat - 'a'.toNat + 10)
  else if 'A' ≤ c && c ≤ 'F' then some (c.toNat - 'A'.toNat + 10)
  else Option.none

/-- UTF-8 decoding with U+FFFD replacement of invalid sequences (the
`errors="replace"` policy used by `urllib.parse.unquote`). The `Nat` fuel
is only a structural-termination device; every recursive call consumes at
least one byte, so `fuel = length` (as used by `utf8Decode`) never runs
out. -/
def utf8DecodeF : Nat → List Nat → List Char
  | 0, _ => []
  | _ + 1, [] => []
  | fuel + 1, b :: rest =>
    if b < 0x80 then Char.ofNat b :: utf8DecodeF fuel rest
    else if 0xC2 ≤ b && b ≤ 0xDF then
      match rest with
      | b1 :: rest1 =>
        if 0x80 ≤ b1 && b1 ≤ 0xBF then
          Char.ofNat ((b % 0x20) * 0x40 + b1 % 0x40) :: utf8DecodeF fuel rest1
        else '�' :: utf8DecodeF fuel rest
      | [] => ['�']
    else if 0xE0 ≤ b && b ≤ 0xEF then
      match rest with
      | b1 :: rest1 =>
        if (if b = 0xE0 then 0xA0 ≤ b1 && b1 ≤ 0xBF
            else if b = 0xED then 0x80 ≤ b1 && b1 ≤ 0x9F
            else 0x80 ≤ b1 && b1 ≤ 0xBF) then
          match rest1 with
          | b2 :: rest2 =>
            if 0x80 ≤ b2 && b2 ≤ 0xBF then
              Char.ofNat ((b % 0x10) * 0x1000 + (b1 % 0x40) * 0x40 + b2 % 0x40) ::
                utf8DecodeF fuel rest2
            else '�' :: utf8DecodeF fuel rest1
          | [] => ['�']
        else '�' :: utf8DecodeF fuel rest
      | [] => ['�']
    else if 0xF0 ≤ b && b ≤ 0xF4 then
      match rest with
      | b1 :: rest1 =>
        if (if b = 0xF0 then 0x90 ≤ b1 && b1 ≤ 0xBF
            else if b = 0xF4 then 0x80 ≤ b1 && b1 ≤ 0x8F
            else 0x80 ≤ b1 && b1 ≤ 0xBF) then
          match rest1 with
          | b2 :: rest2 =>
            if 0x80 ≤ b2 && b2 ≤ 0xBF then
              match rest2 with
              | b3 :: rest3 =>
                if 0x80 ≤ b3 && b3 ≤ 0xBF then
                  Char.ofNat ((b % 8) * 0x40000 + (b1 % 0x40) * 0x1000 +
                    (b2 % 0x40) * 0x40 + b3 % 0x40) :: utf8DecodeF fuel rest3
                else '�' :: utf8DecodeF fuel rest2
              | [] => ['�']
            else '�' :: utf8DecodeF fuel rest1
          | [] => ['�']
        else '�' :: utf8DecodeF fuel rest
      | [] => ['�']
    else '�' :: utf8DecodeF fuel rest

def utf8Decode (l : List Nat) : List Char := utf8DecodeF l.length l

/-- Tokenisation step of `urllib.parse.unquote`: each valid `%XX` escape
becomes a byte, everything else stays a literal character. -/
inductive UqTok where
  | lit (c : Char)
  | byte (b : Nat)
deriving DecidableEq

def uqTokensF : Nat → List Char → List UqTok
  | _, [] => []
  | 0, _ => []
  | fuel + 1, '%' :: c1 :: c2 :: rest =>
    match hexDigVal c1, hexDigVal c2 with
    | some h1, some h2 => .byte (h1 * 16 + h2) :: uqTokensF fuel rest
    | _, _ => .lit '%' :: uqTokensF fuel (c1 :: c2 :: rest)
  | fuel + 1, c :: rest => .lit c :: uqTokensF fuel rest

/-- The fuel is a structural-termination device; every recursive call
consumes at least one character, so `fuel = length` never runs out. -/
def uqTokens (l : List Char) : List UqTok := uqTokensF l.length l

def byteVals : List UqTok → List Nat × List UqTok
  | .byte b :: rest =>
    let (bs, r) := byteVals rest
    (b :: bs, r)
  | l => ([], l)

theorem byteVals_rest_le (l : List UqTok) : (byteVals l).2.length ≤ l.length := by
  induction l with
  | nil => simp [byteVals]
  | cons t rest ih =>
    cases t with
    | lit c => simp [byteVals]
    | byte b =>
      simp only [byteVals]
      exact Nat.le_succ_of_le ih

/-- Emit the decoded characters: maximal runs of escape bytes are decoded
as UTF-8, literals pass through. The fuel is a structural-termination
device; every recursive call consumes at least one token, so
`fuel = length` (as used by `uqEmit`) never runs out. -/
def uqEmitF : Nat → List UqTok → List Char
  | _, [] => []
  | 0, _ => []
  | fuel + 1, .lit c :: rest => c :: uqEmitF fuel rest
  | fuel + 1, .byte b :: rest =>
    utf8Decode (b :: (byteVals rest).1) ++ uqEmitF fuel (byteVals rest).2

def uqEmit (l : List UqTok) : List Char := uqEmitF l.length l

/-- Model of `urllib.parse.unquote` (UTF-8, `errors="replace"`). -/
def pyUnquote (s : String) : String := ⟨uqEmit (uqTokens s.data)⟩

def schemeChar (c : Char) : Bool :=
  asciiAlpha c || isAsciiDigit c || c = '+' || c = '-' || c = '.'

/-- Split a list at the first occurrence of `c` (the occurrence removed). -/
def splitFirst (c : Char) : List Char → Option (List Char × List Char)
  | [] => Option.none
  | a :: l =>
    if a = c then some ([], l)
    else (splitFirst c l).map (fun p => (a :: p.1, p.2))

/-- Scheme removal step of `urllib.parse.urlsplit`. -/
def dropScheme (l : List Char) : List Char :=
  match splitFirst ':' l with
  | some (bef, aft) =>
    match bef with
    | [] => l
    | c0 :: restb => if asciiAlpha c0 && (c0 :: restb).all schemeChar then aft else l
  | Option.none => l

/-- `_splitnetloc`: after a leading `//`, the netloc runs up to the first
`/`, `?` or `#`. -/
def netlocSplit : List Char → List Char × List Char
  | '/' :: '/' :: rest =>
    (rest.takeWhile (fun c => c ≠ '/' && c ≠ '?' && c ≠ '#'),
     rest.dropWhile (fun c => c ≠ '/' && c ≠ '?' && c ≠ '#'))
  | l => ([], l)

/-- Keep only the part before the first occurrence of `c`. -/
def cutAt (c : Char) (l : List Char) : List Char :=
  match splitFirst c l with
  | some (bef, _) => bef
  | Option.none => l

/-- `urlparse` splits `;params` off the last path segment. -/
def cutParams (l : List Char) : List Char :=
  if l.contains '/' then
    let suf := (l.reverse.takeWhile (fun c => c ≠ '/')).reverse
    if suf.contains ';' then
      l.take (l.length - suf.length) ++ suf.takeWhile (fun c => c ≠ ';')
    else l
  else if l.contains ';' then l.takeWhile (fun c => c ≠ ';') else l

/-- The `(netloc, path)` components of `urllib.parse.urlparse`, following
CPython's `urlsplit` steps (unsafe-byte removal, leading C0/space strip,
scheme and netloc split, fragment/query/params cuts). -/
def urlNetlocPath (url : String) : String × String :=
  let l0 := url.data.filter (fun c => c ≠ '\t' && c ≠ '\r' && c ≠ '\n')
  let l1 := l0.dropWhile (fun c => c.toNat ≤ 0x20)
  let l2 := dropScheme l1
  let (nl, r1) := netlocSplit l2
  (⟨nl⟩, ⟨cutParams (cutAt '?' (cutAt '#' r1))⟩)

def pyStartsWithB (s : String) (pat : String) : Bool := pat.data.isPrefixOf s.data

/-- Python `str.replace` (all occurrences, left to right). The fuel is a
structural-termination device; every recursive call consumes at least one
character, so `fuel = length` (as used by `pyReplace`) never runs out. -/
def replaceCoreF (p : Char) (ps : List Char) (rep : List Char) : Nat → List Char → List Char
  | _, [] => []
  | 0, l => l
  | fuel + 1, c :: rest =>
    if (p :: ps).isPrefixOf (c :: rest) then
      rep ++ replaceCoreF p ps rep fuel (rest.drop ps.length)
    else c :: replaceCoreF p ps rep fuel rest

def replaceCore (p : Char) (ps : List Char) (rep : List Char) (l : List Char) : List Char :=
  replaceCoreF p ps rep l.length l

def pyReplace (s pat rep : String) : String :=
  match pat.data with
  | [] => ⟨rep.data ++ s.data.foldr (fun c acc => c :: (rep.data ++ acc)) []⟩
  | p :: ps => ⟨replaceCore p ps rep.data s.data⟩

/-- Whether the decoded path starts with `/<drive letter>:/`
(the regex `^/[A-Za-z]:/`). -/
def driveMatch : List Char → Bool
  | '/' :: c :: ':' :: '/' :: _ => asciiAlpha c
  | _ => false

/-- `fileurl_to_path` from the source: convert a Rekordbox `Location`
value to a usable local path. `sep` models `os.sep`. -/
def fileurl_to_path (sep : String) (loc : String) : String :=
  if loc = "" then ""
  else
    let l := pyStrip loc
    if !pyStartsWithB (pyLower l) "file:" then l
    else
      let nlp := urlNetlocPath l
      let path := pyUnquote nlp.2
      let path :=
        if nlp.1 ≠ "" && pyLower nlp.1 ≠ "localhost" then "//" ++ nlp.1 ++ path
        else path
      let path := if driveMatch path.data then ⟨path.data.drop 1⟩ else path
      pyReplace path "/" sep

/-- Collapse whitespace runs to single spaces (`re.sub(r"\s+", " ", s)`);
`prev` records whether the previous output character came from a run. -/
def squashWsGo (prev : Bool) : List Char → List Char
  | [] => []
  | c :: rest =>
    if pyWs c then
      if prev then squashWsGo true rest else ' ' :: squashWsGo true rest
    else c :: squashWsGo false rest

/-- `norm_ws` from the source: collapse whitespace runs and strip. -/
def norm_ws (s : String) : String := pyStrip ⟨squashWsGo false s.data⟩

/-- Remainder after the first `)` provided no newline occurs before it
(the reach of the non-greedy `\(.*?\)` with `.` not matching newline). -/
def findClose : List Char → Option (List Char)
  | [] => Option.none
  | c :: rest =>
    if c = ')' then some rest
    else if c = '\n' then Option.none
    else findClose rest

/-- `re.sub(r"\(.*?\)", "", s)`: drop every bracketed section. The fuel is
a structural-termination device; every recursive call consumes at least
one character, so `fuel = length` (as used by `stripParens`) suffices. -/
def stripParensF : Nat → List Char → List Char
  | 0, _ => []
  | _ + 1, [] => []
  | fuel + 1, c :: rest =>
    if c = '(' then
      match findClose rest with
      | some rest' => stripParensF fuel rest'
      | Option.none => '(' :: stripParensF fuel rest
    else c :: stripParensF fuel rest

def stripParens (l : List Char) : List Char := stripParensF l.length l

def isLowerAlnum (c : Char) : Bool := ('a' ≤ c && c ≤ 'z') || isAsciiDigit c

/-- `re.sub(r"[^a-z0-9]+", " ", s)`: collapse runs of other characters to
single spaces. -/
def squashOther (prev : Bool) : List Char → List Char
  | [] => []
  | c :: rest =>
    if isLowerAlnum c then c :: squashOther false rest
    else if prev then squashOther true rest
    else ' ' :: squashOther true rest

/-- `norm_key` from the source: lower-case, drop bracketed content,
collapse non-alphanumerics to spaces, normalise whitespace. -/
def norm_key (s : String) : String :=
  norm_ws ⟨squashOther false (stripParens (pyLower s).data)⟩

/-- `Track` record from the source (one per `TRACK` element). -/
structure Track where
  track_id : String
  name : String
  artist : String
  album : String
  remixer : String
  mix : String
  label : String
  genre : String
  year : ℤ
  date_added : String
  bpm : PyFloat
  key : String
  kind : String
  size : ℤ
  duration : ℤ
  bitrate : ℤ
  samplerate : ℤ
  rating : String
  playcount : ℤ
  comments : String
  location_url : String
  location_path : String
deriving DecidableEq

/-- `Track.title_key` from the source. -/
def Track.title_key (t : Track) : String :=
  norm_key t.artist ++ "|" ++ norm_key t.name

/-- First-match association lookup (Python `dict`-style access order is
handled separately; this is plain linear lookup). -/
def alookup (k : String) : List (String × β) → Option β
  | [] => Option.none
  | (k', v) :: rest => if k' = k then some v else alookup k rest

/-- `a.get(key, "")` over an XML attribute mapping. -/
def attrStr (a : List (String × String)) (k : String) : String := (alookup k a).getD ""

/-- `a.get(key, 0)` as the Python value handed to `safe_int`. -/
def attrVal (a : List (String × String)) (k : String) : PyVal :=
  match alookup k a with
  | some s => .pstr s
  | Option.none => .pint 0

/-- `a.get(key, 0.0)` as the Python value handed to `safe_float`. -/
def attrValF (a : List (String × String)) (k : String) : PyVal :=
  match alookup k a with
  | some s => .pstr s
  | Option.none => .pfloat (.finite 0)

/-- Track materialisation step of `iter_tracks`: build a `Track` from one
element's attribute mapping. -/
def mkTrack (sep : String) (a : List (String × String)) : Track :=
  let loc := if attrStr a "Location" ≠ "" then attrStr a "Location" else attrStr a "location"
  { track_id := attrStr a "TrackID"
    name := attrStr a "Name"
    artist := attrStr a "Artist"
    album := attrStr a "Album"
    remixer := attrStr a "Remixer"
    mix := attrStr a "Mix"
    label := attrStr a "Label"
    genre := attrStr a "Genre"
    year := safe_int (attrVal a "Year") 0
    date_added := attrStr a "DateAdded"
    bpm := safe_float (attrValF a "AverageBpm") (.finite 0)
    key := attrStr a "Tonality"
    kind := attrStr a "Kind"
    size := safe_int (attrVal a "Size") 0
    duration := safe_int (attrVal a "TotalTime") 0
    bitrate := safe_int (attrVal a "BitRate") 0
    samplerate := safe_int (attrVal a "SampleRate") 0
    rating := attrStr a "Rating"
    playcount := safe_int (attrVal a "PlayCount") 0
    comments := attrStr a "Comments"
    location_url := loc
    location_path := fileurl_to_path sep loc }

/-- `defaultdict(list)` append, preserving first-insertion key order as a
Python `dict` does. -/
def upsert (k : String) (v : α) : List (String × List α) → List (String × List α)
  | [] => [(k, [v])]
  | (k', vs) :: rest =>
    if k' = k then (k', vs ++ [v]) :: rest else (k', vs) :: upsert k v rest

/-- One `defaultdict` grouping loop: items whose key function yields `none`
are skipped (the source's guard clauses). -/
def groupFold (f : α → Option String) (l : List α) : List (String × List α) :=
  l.foldl
    (fun acc t =>
      match f t with
      | some k => upsert k t acc
      | Option.none => acc)
    []

/-- Only groups with two or more members are reported. -/
def dupGroups (f : α → Option String) (l : List α) : List (String × List α) :=
  (groupFold f l).filter (fun g => decide (1 < g.2.length))

/-- Python `s.strip("|")`. -/
def stripPipes (s : String) : String :=
  ⟨((s.data.dropWhile (fun c => c == '|')).reverse.dropWhile (fun c => c == '|')).reverse⟩

/-- Grouping key for the "Same Location" pass: lowered normalized path,
skipping empty paths. -/
def locKeyOf (t : Track) : Option String :=
  if pyLower t.location_path = "" then Option.none else some (pyLower t.location_path)

/-- Grouping key for the "Same Artist+Title" pass: `title_key`, skipping
keys that are empty after stripping `|`. -/
def titleKeyOf (t : Track) : Option String :=
  if stripPipes t.title_key = "" then Option.none else some t.title_key

/-- Grouping key for the "Signature Match" pass. `none` models the crash
of `int(round(bpm))` on a truthy non-finite bpm. -/
def sigKeyOf (t : Track) : Option String :=
  match t.bpm with
  | .finite q =>
    some (t.title_key ++ "|" ++ toString t.duration ++ "|" ++
      toString (if q = 0 then (0 : ℤ) else roundHalfEven q))
  | _ => Option.none

def locGroups (ts : List Track) : List (String × List Track) := dupGroups locKeyOf ts

def titleGroups (ts : List Track) : List (String × List Track) := dupGroups titleKeyOf ts

/-- The signature grouping pass of `analyse`; `none` when some track's bpm
makes `int(round(...))` raise, aborting the run. -/
def sigGroups (ts : List Track) : Option (List (String × List Track)) :=
  if ts.all (fun t => (sigKeyOf t).isSome) then some (dupGroups sigKeyOf ts)
  else Option.none

theorem alookup_upsert (k k' : String) (v : α) (acc : List (String × List α)) :
    alookup k' (upsert k v acc) =
      if k' = k then some ((alookup k acc).getD [] ++ [v]) else alookup k' acc := by
  induction acc with
  | nil =>
    by_cases h : k' = k
    · subst h; simp [upsert, alookup]
    · have h' : ¬k = k' := fun hh => h hh.symm
      simp [upsert, alookup, h, h']
  | cons p rest ih =>
    obtain ⟨k'', vs⟩ := p
    by_cases h1 : k'' = k
    · subst h1
      by_cases h2 : k' = k''
      · subst h2; simp [upsert, alookup]
      · have h2' : ¬k'' = k' := fun hh => h2 hh.symm
        simp [upsert, alookup, h2, h2']
    · by_cases h2 : k'' = k'
      · subst h2
        have h3 : ¬k = k'' := fun hh => h1 hh.symm
        simp [upsert, alookup, h1, h3]
      · simp [upsert, alookup, h1, h2, ih]

theorem alookup_none_iff (k : String) (l : List (String × β)) :
    alookup k l = Option.none ↔ k ∉ l.map Prod.fst := by
  induction l with
  | nil => simp [alookup]
  | cons p rest ih =>
    obtain ⟨k', v⟩ := p
    by_cases h : k' = k
    · subst h; simp [alookup]
    · have h' : ¬k = k' := fun hh => h hh.symm
      simp [alookup, h, h', ih]

theorem upsert_keys (k : String) (v : α) (acc : List (String × List α)) :
    (upsert k v acc).map Prod.fst =
      if k ∈ acc.map Prod.fst then acc.map Prod.fst
      else acc.map Prod.fst ++ [k] := by
  induction acc with
  | nil => simp [upsert]
  | cons p rest ih =>
    obtain ⟨k', vs⟩ := p
    by_cases h : k' = k
    · subst h; simp [upsert]
    · have h' : ¬k = k' := fun hh => h hh.symm
      by_cases hm : k ∈ rest.map Prod.fst
      · simp [upsert, h, ih, hm, h']
      · simp [upsert, h, ih, hm, h']

theorem upsert_keys_nodup (k : String) (v : α) (acc : List (String × List α))
    (h : (acc.map Prod.fst).Nodup) : ((upsert k v acc).map Prod.fst).Nodup := by
  rw [upsert_keys]
  split
  · exact h
  · rename_i hnotin
    simp [List.nodup_append, h, hnotin]

theorem alookup_foldl_group [DecidableEq α] (f : α → Option String) (l : List α) :
    ∀ (acc : List (String × List α)) (k : String),
      alookup k
          (l.foldl
            (fun acc t =>
              match f t with
              | some k' => upsert k' t acc
              | Option.none => acc)
            acc) =
        match alookup k acc with
        | some vs => some (vs ++ l.filter (fun t => f t == some k))
        | Option.none =>
          if l.filter (fun t => f t == some k) = [] then Option.none
          else some (l.filter (fun t => f t == some k)) := by
  induction l with
  | nil =>
    intro acc k
    cases h : alookup k acc <;> simp [h]
  | cons t l ih =>
    intro acc k
    cases hft : f t with
    | none =>
      have hne : (f t == some k) = false := by simp [hft]
      simp only [List.foldl_cons, hft, List.filter_cons, hne]
      exact ih acc k
    | some k' =>
      by_cases hk : k = k'
      · subst hk
        have hbe : (f t == some k) = true := by simp [hft]
        simp only [List.foldl_cons, hft, List.filter_cons, hbe, if_true]
        rw [ih (upsert k t acc) k, alookup_upsert]
        simp only [if_pos rfl]
        cases h : alookup k acc <;> simp [h]
      · have hne : ((some k' : Option String) == some k) = false := by
          have : ¬k' = k := fun hh => hk hh.symm
          simp [this]
        simp only [List.foldl_cons, hft, List.filter_cons, hne, Bool.false_eq_true,
          if_false]
        rw [ih (upsert k' t acc) k, alookup_upsert, if_neg hk]

theorem alookup_groupFold [DecidableEq α] (f : α → Option String) (l : List α) (k : String) :
    alookup k (groupFold f l) =
      if l.filter (fun t => f t == some k) = [] then Option.none
      else some (l.filter (fun t => f t == some k)) := by
  have := alookup_foldl_group f l [] k
  simpa [groupFold, alookup] using this

theorem groupFold_keys_nodup (f : α → Option String) (l : List α) :
    ((groupFold f l).map Prod.fst).Nodup := by
  suffices h : ∀ acc : List (String × List α), (acc.map Prod.fst).Nodup →
      ((l.foldl
          (fun acc t =>
            match f t with
            | some k' => upsert k' t acc
            | Option.none => acc)
          acc).map Prod.fst).Nodup by
    exact h [] (by simp)
  induction l with
  | nil => intro acc h; simpa
  | cons t l ih =>
    intro acc h
    cases hft : f t with
    | none => simp only [List.foldl_cons, hft]; exact ih acc h
    | some k' => simp only [List.foldl_cons, hft]; exact ih _ (upsert_keys_nodup k' t acc h)

theorem alookup_of_mem {l : List (String × β)} {k : String} {vs : β}
    (hnd : (l.map Prod.fst).Nodup) (h : (k, vs) ∈ l) : alookup k l = some vs := by
  induction l with
  | nil => simp at h
  | cons p rest ih =>
    obtain ⟨k', v'⟩ := p
    simp only [List.map_cons, List.nodup_cons] at hnd
    rcases List.mem_cons.mp h with heq | hmem
    · injection heq with h1 h2
      subst h1; subst h2
      simp [alookup]
    · by_cases hk : k' = k
      · subst hk
        exact absurd (List.mem_map_of_mem Prod.fst hmem) hnd.1
      · rw [alookup, if_neg hk]
        exact ih hnd.2 hmem

theorem mem_of_alookup {l : List (String × β)} {k : String} {vs : β}
    (h : alookup k l = some vs) : (k, vs) ∈ l := by
  induction l with
  | nil => simp [alookup] at h
  | cons p rest ih =>
    obtain ⟨k', v'⟩ := p
    by_cases hk : k' = k
    · subst hk
      rw [alookup, if_pos rfl] at h
      injection h with h
      subst h
      exact List.mem_cons_self _ _
    · rw [alookup, if_neg hk] at h
      exact List.mem_cons_of_mem _ (ih h)

/-- Membership characterisation for the grouping loop: the reported pairs
are exactly the keys with their (nonempty) filtered member lists. -/
theorem mem_groupFold [DecidableEq α] (f : α → Option String) (l : List α) (k : String) (vs : List α) :
    (k, vs) ∈ groupFold f l ↔
      l.filter (fun t => f t == some k) = vs ∧ vs ≠ [] := by
  constructor
  · intro h
    have hl := alookup_of_mem (groupFold_keys_nodup f l) h
    rw [alookup_groupFold] at hl
    split at hl
    · exact absurd hl (by simp)
    · rename_i hne
      injection hl with hl
      exact ⟨hl, hl ▸ hne⟩
  · rintro ⟨h1, h2⟩
    apply mem_of_alookup
    rw [alookup_groupFold, if_neg (h1 ▸ h2), h1]

theorem prop_of_mem_group [DecidableEq α] {f : α → Option String} {l : List α} {k : String}
    {vs : List α} {t : α} (hg : (k, vs) ∈ groupFold f l) (ht : t ∈ vs) :
    t ∈ l ∧ f t = some k := by
  obtain ⟨h1, -⟩ := (mem_groupFold f l k vs).mp hg
  subst h1
  obtain ⟨hmem, hbe⟩ := List.mem_filter.mp ht
  exact ⟨hmem, by simpa using hbe⟩

theorem filter_eq_single_of {l : List β} {a : β} {p : β → Bool}
    (hnd : l.Nodup) (ha : a ∈ l) (hp : ∀ b ∈ l, (p b = true ↔ b = a)) :
    l.filter p = [a] := by
  induction l with
  | nil => simp at ha
  | cons x l ih =>
    rw [List.nodup_cons] at hnd
    by_cases hax : x = a
    · subst hax
      have hpx : p x = true := (hp x (List.mem_cons_self x l)).mpr rfl
      have hfl : l.filter p = [] := by
        apply List.filter_eq_nil_iff.mpr
        intro b hb hpb
        have hba := (hp b (List.mem_cons_of_mem x hb)).mp hpb
        exact hnd.1 (hba ▸ hb)
      simp [List.filter_cons, hpx, hfl]
    · have hpx : ¬p x = true := fun hc => hax ((hp x (List.mem_cons_self x l)).mp hc)
      have ha' : a ∈ l := by
        rcases List.mem_cons.mp ha with h | h
        · exact absurd h.symm hax
        · exact h
      simp only [List.filter_cons, if_neg hpx]
      exact ih hnd.2 ha' (fun b hb => hp b (List.mem_cons_of_mem x hb))

/-- The groups containing a given member: exactly the one keyed by its own
key, carrying every sharer of that key. -/
theorem group_filter_mem [DecidableEq α] (f : α → Option String) (l : List α)
    (t : α) (k : String) (ht : t ∈ l) (hf : f t = some k) :
    (groupFold f l).filter (fun g => decide (t ∈ g.2)) =
      [(k, l.filter (fun u => f u == some k))] := by
  have htf : t ∈ l.filter (fun u => f u == some k) :=
    List.mem_filter.mpr ⟨ht, by simp [hf]⟩
  apply filter_eq_single_of
  · exact (groupFold_keys_nodup f l).of_map
  · exact (mem_groupFold f l k _).mpr ⟨rfl, by intro h; rw [h] at htf; simp at htf⟩
  · intro g hg
    constructor
    · intro hdec
      have htg : t ∈ g.2 := of_decide_eq_true hdec
      have hp := prop_of_mem_group hg htg
      have hk : g.1 = k := by
        have := hp.2
        rw [hf] at this
        injection this with h
        exact h.symm
      obtain ⟨h1, -⟩ := (mem_groupFold f l g.1 g.2).mp (by simpa using hg)
      have : g = (g.1, g.2) := rfl
      rw [this, hk, ← h1, hk]
    · intro hgeq
      subst hgeq
      exact decide_eq_true htf

theorem not_mem_group_of_none [DecidableEq α] {f : α → Option String} {l : List α} {t : α}
    (hf : f t = Option.none) : ∀ g ∈ groupFold f l, t ∉ g.2 := by
  intro g hg htg
  have hp := prop_of_mem_group (by simpa using hg : (g.1, g.2) ∈ groupFold f l) htg
  rw [hf] at hp
  exact absurd hp.2 (by simp)

theorem filter_sublist_mono {p q : α → Bool} (h : ∀ a, p a = true → q a = true) :
    ∀ l : List α, List.Sublist (l.filter p) (l.filter q) := by
  intro l
  induction l with
  | nil => simp
  | cons a l ih =>
    by_cases hp : p a = true
    · simp only [List.filter_cons, if_pos hp, if_pos (h a hp)]
      exact ih.cons₂ a
    · simp only [List.filter_cons, if_neg hp]
      split
      · exact ih.cons a
      · exact ih

theorem string_data_append (s t : String) : (s ++ t).data = s.data ++ t.data := by
  cases s; cases t; rfl

theorem string_eq_of_data {s t : String} (h : s.data = t.data) : s = t := by
  cases s; cases t
  exact congrArg String.mk h

theorem mem_of_mem_dropWhile {p : α → Bool} {l : List α} {c : α}
    (h : c ∈ l.dropWhile p) : c ∈ l := by
  induction l with
  | nil => simp at h
  | cons x l ih =>
    rw [List.dropWhile_cons] at h
    split at h
    · exact List.mem_cons_of_mem _ (ih h)
    · exact h

theorem mem_of_mem_pyStripChars {l : List Char} {c : Char}
    (h : c ∈ pyStripChars l) : c ∈ l := by
  unfold pyStripChars at h
  rw [List.mem_reverse] at h
  have h2 := mem_of_mem_dropWhile h
  rw [List.mem_reverse] at h2
  exact mem_of_mem_dropWhile h2

theorem squashOther_chars (prev : Bool) (l : List Char) :
    ∀ c ∈ squashOther prev l, isLowerAlnum c = true ∨ c = ' ' := by
  induction l generalizing prev with
  | nil => simp [squashOther]
  | cons x l ih =>
    intro c hc
    by_cases hx : isLowerAlnum x
    · simp only [squashOther, if_pos hx] at hc
      rcases List.mem_cons.mp hc with h | h
      · exact Or.inl (h ▸ hx)
      · exact ih false c h
    · simp only [squashOther, if_neg hx] at hc
      cases prev with
      | true => exact ih true c (by simpa using hc)
      | false =>
        rcases List.mem_cons.mp (by simpa using hc) with h | h
        · exact Or.inr h
        · exact ih true c h

theorem squashWsGo_chars (prev : Bool) (l : List Char) :
    ∀ c ∈ squashWsGo prev l, c ∈ l ∨ c = ' ' := by
  induction l generalizing prev with
  | nil => simp [squashWsGo]
  | cons x l ih =>
    intro c hc
    by_cases hx : pyWs x
    · simp only [squashWsGo, if_pos hx] at hc
      cases prev with
      | true =>
        rcases ih true c (by simpa using hc) with h | h
        · exact Or.inl (List.mem_cons_of_mem _ h)
        · exact Or.inr h
      | false =>
        rcases List.mem_cons.mp (by simpa using hc) with h | h
        · exact Or.inr h
        · rcases ih true c h with h' | h'
          · exact Or.inl (List.mem_cons_of_mem _ h')
          · exact Or.inr h'
    · simp only [squashWsGo, if_neg hx] at hc
      rcases List.mem_cons.mp hc with h | h
      · exact Or.inl (h ▸ List.mem_cons_self _ _)
      · rcases ih false c h with h' | h'
        · exact Or.inl (List.mem_cons_of_mem _ h')
        · exact Or.inr h'

theorem norm_key_chars (s : String) :
    ∀ c ∈ (norm_key s).data, isLowerAlnum c = true ∨ c = ' ' := by
  intro c hc
  unfold norm_key norm_ws pyStrip at hc
  have h1 := mem_of_mem_pyStripChars hc
  rcases squashWsGo_chars false _ c h1 with h2 | h2
  · exact squashOther_chars false _ c h2
  · exact Or.inr h2

theorem norm_key_no_pipe (s : String) : '|' ∉ (norm_key s).data := by
  intro h
  rcases norm_key_chars s '|' h with h1 | h1
  · exact absurd h1 (by decide)
  · exact absurd h1 (by decide)

theorem append_pipe_inj {l1 l2 r1 r2 : List Char}
    (h1 : '|' ∉ l1) (h2 : '|' ∉ l2)
    (h : l1 ++ '|' :: r1 = l2 ++ '|' :: r2) : l1 = l2 ∧ r1 = r2 := by
  induction l1 generalizing l2 with
  | nil =>
    cases l2 with
    | nil =>
      simp only [List.nil_append, List.cons.injEq] at h
      exact ⟨rfl, h.2⟩
    | cons y l2 =>
      simp only [List.nil_append, List.cons_append, List.cons.injEq] at h
      exact absurd (h.1 ▸ List.mem_cons_self y l2) h2
  | cons x l1 ih =>
    cases l2 with
    | nil =>
      simp only [List.nil_append, List.cons_append, List.cons.injEq] at h
      exact absurd (h.1.symm ▸ List.mem_cons_self x l1) h1
    | cons y l2 =>
      simp only [List.cons_append, List.cons.injEq] at h
      obtain ⟨hxy, hrest⟩ := h
      subst hxy
      obtain ⟨ha, hb⟩ := ih (fun hm => h1 (List.mem_cons_of_mem _ hm))
        (fun hm => h2 (List.mem_cons_of_mem _ hm)) hrest
      exact ⟨by rw [ha], hb⟩

theorem pipe_data : ("|" : String).data = ['|'] := rfl

/-- Tracks sharing a signature key share the identity key: the signature
key string determines the `title_key` because the normalised artist and
name contain no `|`. -/
theorem title_key_eq_of_sigKey {t1 t2 : Track} {k : String}
    (hs1 : sigKeyOf t1 = some k) (hs2 : sigKeyOf t2 = some k) :
    t1.title_key = t2.title_key := by
  cases hb1 : t1.bpm with
  | inf n => simp [sigKeyOf, hb1] at hs1
  | nan => simp [sigKeyOf, hb1] at hs1
  | finite q1 =>
    cases hb2 : t2.bpm with
    | inf n => simp [sigKeyOf, hb2] at hs2
    | nan => simp [sigKeyOf, hb2] at hs2
    | finite q2 =>
      rw [sigKeyOf, hb1] at hs1
      rw [sigKeyOf, hb2] at hs2
      injection hs1 with hs1
      injection hs2 with hs2
      have E := congrArg String.data (hs1.trans hs2.symm)
      simp only [Track.title_key, string_data_append, pipe_data, List.append_assoc,
        List.singleton_append] at E
      obtain ⟨ha, hrest⟩ :=
        append_pipe_inj (norm_key_no_pipe t1.artist) (norm_key_no_pipe t2.artist) E
      obtain ⟨hn, -⟩ :=
        append_pipe_inj (norm_key_no_pipe t1.name) (norm_key_no_pipe t2.name) hrest
      unfold Track.title_key
      rw [string_eq_of_data ha, string_eq_of_data hn]

/-- Claim C3 (amended): for every track list on which the signature pass
completes, every pair of tracks appearing together in a reported
"signature" group whose identity key is non-degenerate (non-empty after
stripping `|`) also appears together in a reported "identity key" group.
The original claim fails for tracks whose artist and title normalise to
the empty string: they form signature groups but are excluded from
identity-key grouping. -/
theorem C3_sig_refines_identity (ts : List Track) (gs : List (String × List Track))
    (hgs : sigGroups ts = some gs) (g : String × List Track) (hg : g ∈ gs)
    (t1 t2 : Track) (h1 : t1 ∈ g.2) (h2 : t2 ∈ g.2)
    (hk : stripPipes t1.title_key ≠ "") :
    ∃ g' ∈ titleGroups ts, t1 ∈ g'.2 ∧ t2 ∈ g'.2 := by
  unfold sigGroups at hgs
  split at hgs
  · injection hgs with hgs
    subst hgs
    obtain ⟨hgf, hglen⟩ := List.mem_filter.mp hg
    have hgmem : (g.1, g.2) ∈ groupFold sigKeyOf ts := by simpa using hgf
    have hp1 := prop_of_mem_group hgmem h1
    have hp2 := prop_of_mem_group hgmem h2
    have hteq2 : t2.title_key = t1.title_key := title_key_eq_of_sigKey hp2.2 hp1.2
    have ht1K : titleKeyOf t1 = some t1.title_key := by
      unfold titleKeyOf; rw [if_neg hk]
    have ht2K : titleKeyOf t2 = some t1.title_key := by
      unfold titleKeyOf; rw [hteq2, if_neg hk]
    have himp : ∀ u, (sigKeyOf u == some g.1) = true →
        (titleKeyOf u == some t1.title_key) = true := by
      intro u hu
      have hueq : sigKeyOf u = some g.1 := by simpa using hu
      have huk : u.title_key = t1.title_key := title_key_eq_of_sigKey hueq hp1.2
      unfold titleKeyOf
      rw [huk, if_neg hk]
      simp
    have hfilt := ((mem_groupFold sigKeyOf ts g.1 g.2).mp hgmem).1
    refine ⟨(t1.title_key, ts.filter (fun u => titleKeyOf u == some t1.title_key)),
      ?_, ?_, ?_⟩
    · apply List.mem_filter.mpr
      refine ⟨(mem_groupFold titleKeyOf ts t1.title_key _).mpr ⟨rfl, ?_⟩, ?_⟩
      · intro hnil
        have ht1f : t1 ∈ ts.filter (fun u => titleKeyOf u == some t1.title_key) :=
          List.mem_filter.mpr ⟨hp1.1, by simp [ht1K]⟩
        rw [hnil] at ht1f
        simp at ht1f
      · have hsub := (filter_sublist_mono himp ts).length_le
        rw [hfilt] at hsub
        have hlen : 1 < g.2.length := of_decide_eq_true hglen
        simpa using Nat.lt_of_lt_of_le hlen hsub
    · exact List.mem_filter.mpr ⟨hp1.1, by simp [ht1K]⟩
    · exact List.mem_filter.mpr ⟨hp2.1, by simp [ht2K]⟩
  · exact absurd hgs (by simp)

/-- A quality-default track record (all fields empty or zero), shared by
the concrete examples below. -/
def baseTrack : Track :=
  { track_id := "", name := "", artist := "", album := "", remixer := "", mix := ""
    label := "", genre := "", year := 0, date_added := "", bpm := .finite 0, key := ""
    kind := "", size := 0, duration := 0, bitrate := 0, samplerate := 0, rating := ""
    playcount := 0, comments := "", location_url := "", location_path := "" }

def sigCexA : Track := { baseTrack with track_id := "1", duration := 100, location_path := "a" }

def sigCexB : Track := { baseTrack with track_id := "2", duration := 100, location_path := "b" }

/-- Claim C3 counterexample: two tracks with empty artist and title and
equal duration/bpm form a reported signature group of size two, while the
identity-key pass reports no group at all, so signature grouping is not a
refinement of identity-key grouping as stated. -/
theorem C3_cex :
    sigGroups [sigCexA, sigCexB] = some [("||100|0", [sigCexA, sigCexB])] ∧
    titleGroups [sigCexA, sigCexB] = [] := by
  constructor
  · rfl
  · rfl

def sigWitA : Track :=
  { baseTrack with
    track_id := "1", artist := "Art", name := "Song"
    duration := 200, bpm := .finite 128, location_path := "x" }

def sigWitB : Track :=
  { baseTrack with
    track_id := "2", artist := "Art", name := "Song"
    duration := 200, bpm := .finite 128, location_path := "y" }

/-- Witness for the amended C3 theorem at a concrete pair of tracks. -/
theorem C3_witness :
    ∃ g' ∈ titleGroups [sigWitA, sigWitB], sigWitA ∈ g'.2 ∧ sigWitB ∈ g'.2 :=
  C3_sig_refines_identity [sigWitA, sigWitB]
    [("art|song|200|128", [sigWitA, sigWitB])] (by decide)
    ("art|song|200|128", [sigWitA, sigWitB]) (by simp)
    sigWitA sigWitB (by simp) (by simp) (by decide)

/-- Claim C6 (amended): exact-path duplicate grouping, restricted to
non-empty normalized paths. For a track `t` in the list whose case-folded
normalized path `k` is non-empty and shared by at least two tracks, the
reported "Same Location" groups containing `t` are exactly the single
group `(k, sharers)` where `sharers` lists every track with that key, in
input order; a track whose key is shared by no other track, or whose
normalized path is empty, appears in no reported group. The original
claim fails for two tracks with empty normalized paths: they share a key
but the pass skips empty keys. -/
theorem C6_exact_path_groups (ts : List Track) (t : Track) (ht : t ∈ ts) :
    (pyLower t.location_path ≠ "" →
        2 ≤ (ts.filter (fun u => locKeyOf u == some (pyLower t.location_path))).length →
        (locGroups ts).filter (fun g => decide (t ∈ g.2)) =
          [(pyLower t.location_path,
            ts.filter (fun u => locKeyOf u == some (pyLower t.location_path)))]) ∧
    ((ts.filter (fun u => locKeyOf u == some (pyLower t.location_path))).length ≤ 1 →
        (locGroups ts).filter (fun g => decide (t ∈ g.2)) = []) ∧
    (pyLower t.location_path = "" →
        (locGroups ts).filter (fun g => decide (t ∈ g.2)) = []) := by
  have hcomm : ∀ P : String × List Track → Bool,
      (locGroups ts).filter P =
        ((groupFold locKeyOf ts).filter P).filter (fun g => decide (1 < g.2.length)) := by
    intro P
    unfold locGroups dupGroups
    rw [List.filter_filter, List.filter_filter]
    congr 1
    funext g
    exact Bool.and_comm _ _
  by_cases hk : pyLower t.location_path = ""
  · have hnone : locKeyOf t = Option.none := by unfold locKeyOf; rw [if_pos hk]
    have hempty : (groupFold locKeyOf ts).filter (fun g => decide (t ∈ g.2)) = [] := by
      apply List.filter_eq_nil_iff.mpr
      intro g hg
      simp only [decide_eq_true_eq]
      exact not_mem_group_of_none hnone g hg
    refine ⟨fun h => absurd hk h, fun _ => ?_, fun _ => ?_⟩ <;>
      rw [hcomm, hempty] <;> rfl
  · have hkey : locKeyOf t = some (pyLower t.location_path) := by
      unfold locKeyOf; rw [if_neg hk]
    have hsingle := group_filter_mem locKeyOf ts t (pyLower t.location_path) ht hkey
    refine ⟨fun _ hlen => ?_, fun hlen => ?_, fun h => absurd h hk⟩
    · rw [hcomm, hsingle]
      simp only [List.filter_cons, List.filter_nil]
      rw [if_pos]
      simp only [decide_eq_true_eq]
      omega
    · rw [hcomm, hsingle]
      simp only [List.filter_cons, List.filter_nil]
      rw [if_neg]
      simp only [decide_eq_true_eq]
      omega

def locCexA : Track := { baseTrack with track_id := "1", name := "a" }

def locCexB : Track := { baseTrack with track_id := "2", name := "b" }

/-- Claim C6 counterexample: two tracks whose normalized paths are both
empty (hence identical after case-folding) appear in no "Same Location"
group at all, not in exactly one group together. -/
theorem C6_cex :
    pyLower locCexA.location_path = pyLower locCexB.location_path ∧
    (locGroups [locCexA, locCexB]).filter (fun g => decide (locCexA ∈ g.2)) = [] := by
  constructor
  · rfl
  · rfl

def locWitA : Track := { baseTrack with track_id := "1", location_path := "D:\\A.mp3" }

def locWitB : Track := { baseTrack with track_id := "2", location_path := "d:\\a.MP3" }

/-- Witness for the amended C6 theorem at a concrete pair of tracks
sharing a case-folded path. -/
theorem C6_witness :
    (locGroups [locWitA, locWitB]).filter (fun g => decide (locWitA ∈ g.2)) =
      [("d:\\a.mp3", [locWitA, locWitB])] := by
  have h := (C6_exact_path_groups [locWitA, locWitB] locWitA (by simp)).1
  have h1 : pyLower locWitA.location_path ≠ "" := by decide
  have h2 : 2 ≤ (([locWitA, locWitB]).filter
      (fun u => locKeyOf u == some (pyLower locWitA.location_path))).length := by decide
  have h3 := h h1 h2
  exact h3.trans (by decide)

/-- `Playlist` record from the source (one per container node with track
keys or a declared entry count). -/
structure Playlist where
  path : String
  name : String
  node_type : String
  entries : ℤ
  track_keys : List String
deriving DecidableEq

/-- De-duplication loop at the end of `parse_playlists`: walk the emitted
records with a `seen` set of paths, keeping the first occurrence of each
path. -/
def dedupGo (seen : List String) : List Playlist → List Playlist
  | [] => []
  | p :: rest =>
    if p.path ∈ seen then dedupGo seen rest
    else p :: dedupGo (p.path :: seen) rest

def dedupByPath (ps : List Playlist) : List Playlist := dedupGo [] ps

theorem dedupGo_sublist (ps : List Playlist) :
    ∀ seen, List.Sublist (dedupGo seen ps) ps := by
  induction ps with
  | nil => intro seen; simp [dedupGo]
  | cons p rest ih =>
    intro seen
    unfold dedupGo
    split
    · exact (ih seen).cons p
    · exact (ih _).cons₂ p

theorem dedupGo_nodup (ps : List Playlist) :
    ∀ seen, (∀ q ∈ dedupGo seen ps, q.path ∉ seen) ∧
      ((dedupGo seen ps).map (fun p => p.path)).Nodup := by
  induction ps with
  | nil => intro seen; simp [dedupGo]
  | cons p rest ih =>
    intro seen
    unfold dedupGo
    split
    · exact ⟨(ih seen).1, (ih seen).2⟩
    · rename_i hmem
      refine ⟨?_, ?_⟩
      · intro q hq
        rcases List.mem_cons.mp hq with rfl | hq'
        · exact hmem
        · exact fun hc => (ih (p.path :: seen)).1 q hq' (List.mem_cons_of_mem _ hc)
      · simp only [List.map_cons, List.nodup_cons]
        refine ⟨?_, (ih (p.path :: seen)).2⟩
        intro hc
        rw [List.mem_map] at hc
        obtain ⟨q, hq, hqe⟩ := hc
        exact (ih (p.path :: seen)).1 q hq (hqe ▸ List.mem_cons_self _ _)

theorem dedupGo_find (ps : List Playlist) :
    ∀ seen x, x ∉ seen →
      (dedupGo seen ps).find? (fun q => q.path == x) =
        ps.find? (fun q => q.path == x) := by
  induction ps with
  | nil => intro seen x hx; rfl
  | cons p rest ih =>
    intro seen x hx
    unfold dedupGo
    split
    · rename_i hmem
      have hne : ¬(p.path == x) = true := by
        simp only [beq_iff_eq]
        intro hc
        exact hx (hc ▸ hmem)
      exact (ih seen x hx).trans (List.find?_cons_of_neg rest hne).symm
    · by_cases hpx : p.path = x
      · rw [List.find?_cons_of_pos _ (by simp [hpx]),
          List.find?_cons_of_pos _ (by simp [hpx])]
      · rw [List.find?_cons_of_neg _ (by simp [hpx]),
          List.find?_cons_of_neg _ (by simp [hpx])]
        apply ih
        intro hc
        rcases List.mem_cons.mp hc with h | h
        · exact hpx h.symm
        · exact hx h

/-- Claim C9: playlist de-duplication keeps at most one record per
hierarchical path, the record kept for a path is the first one emitted
with that path, and the kept records stay in emission order. -/
theorem C9_dedup_first (ps : List Playlist) :
    List.Sublist (dedupByPath ps) ps ∧
    ((dedupByPath ps).map (fun p => p.path)).Nodup ∧
    ∀ p ∈ ps, (dedupByPath ps).find? (fun q => q.path == p.path) =
      ps.find? (fun q => q.path == p.path) :=
  ⟨dedupGo_sublist ps [], (dedupGo_nodup ps []).2,
    fun p _ => dedupGo_find ps [] p.path (by simp)⟩

def dupPlA : Playlist :=
  { path := "Root/A", name := "A", node_type := "1", entries := 1, track_keys := ["1"] }

def dupPlA' : Playlist :=
  { path := "Root/A", name := "A", node_type := "1", entries := 2, track_keys := ["2", "3"] }

def dupPlB : Playlist :=
  { path := "Root/B", name := "B", node_type := "1", entries := 1, track_keys := ["2"] }

/-- Witness for C9 at a concrete emission sequence with a repeated path. -/
theorem C9_witness :
    dedupByPath [dupPlA, dupPlA', dupPlB] = [dupPlA, dupPlB] ∧
    (dedupByPath [dupPlA, dupPlA', dupPlB]).find?
        (fun q => q.path == dupPlA'.path) = some dupPlA := by
  refine ⟨by rfl, ?_⟩
  have h := (C9_dedup_first [dupPlA, dupPlA', dupPlB]).2.2 dupPlA' (by simp)
  rw [h]
  rfl

/-- Python dict assignment `d[k] = v`: update in place, keeping first
insertion order, or append a new key. -/
def dictInsert (acc : List (String × β)) (k : String) (v : β) : List (String × β) :=
  match acc with
  | [] => [(k, v)]
  | (k', v') :: rest => if k' = k then (k', v) :: rest else (k', v') :: dictInsert rest k v

/-- `tracks_by_key` from `analyse`: map each non-empty `TrackID` to its
track, last write wins. -/
def tracksByKey (ts : List Track) : List (String × Track) :=
  ts.foldl (fun acc t => if t.track_id = "" then acc else dictInsert acc t.track_id t) []

def catMap (f : α → List β) : List α → List β
  | [] => []
  | a :: l => f a ++ catMap f l

/-- `used_keys`: every track key referenced by any playlist. -/
def usedKeys (pls : List Playlist) : List String := catMap (fun p => p.track_keys) pls

/-- `broken_rows`: one `(PlaylistPath, MissingTrackKey)` row per occurrence
of a member key bound to no loaded track. -/
def brokenRows (ts : List Track) (pls : List Playlist) : List (String × String) :=
  catMap
    (fun p =>
      p.track_keys.filterMap
        (fun k =>
          if (alookup k (tracksByKey ts)).isNone then some (p.path, k) else Option.none))
    pls

/-- `orphan_rows`: one row per `tracks_by_key` entry whose key no playlist
references (the row's fields are determined by the key and its track). -/
def orphanRows (ts : List Track) (pls : List Playlist) : List (String × Track) :=
  (tracksByKey ts).filterMap
    (fun e => if e.1 ∈ usedKeys pls then Option.none else some e)

theorem dictInsert_keys (acc : List (String × β)) (k : String) (v : β) :
    (dictInsert acc k v).map Prod.fst =
      if k ∈ acc.map Prod.fst then acc.map Prod.fst else acc.map Prod.fst ++ [k] := by
  induction acc with
  | nil => simp [dictInsert]
  | cons p rest ih =>
    obtain ⟨k', v'⟩ := p
    by_cases h : k' = k
    · subst h; simp [dictInsert]
    · have h' : ¬k = k' := fun hh => h hh.symm
      by_cases hm : k ∈ rest.map Prod.fst
      · simp [dictInsert, h, ih, hm, h']
      · simp [dictInsert, h, ih, hm, h']

theorem dictInsert_keys_nodup (acc : List (String × β)) (k : String) (v : β)
    (h : (acc.map Prod.fst).Nodup) : ((dictInsert acc k v).map Prod.fst).Nodup := by
  rw [dictInsert_keys]
  split
  · exact h
  · rename_i hnotin
    simp [List.nodup_append, h, hnotin]

theorem tracksByKey_keys_nodup (ts : List Track) :
    ((tracksByKey ts).map Prod.fst).Nodup := by
  suffices h : ∀ acc : List (String × Track), (acc.map Prod.fst).Nodup →
      ((ts.foldl
          (fun acc t => if t.track_id = "" then acc else dictInsert acc t.track_id t)
          acc).map Prod.fst).Nodup by
    exact h [] (by simp)
  induction ts with
  | nil => intro acc h; simpa
  | cons t ts ih =>
    intro acc h
    simp only [List.foldl_cons]
    split
    · exact ih acc h
    · exact ih _ (dictInsert_keys_nodup acc t.track_id t h)

theorem count_filterMap_broken (tbk : List (String × Track)) (path : String) (x : String)
    (hx : (alookup x tbk).isNone = true) (ks : List String) :
    (ks.filterMap
        (fun k => if (alookup k tbk).isNone then some (path, k) else Option.none)).count
        (path, x) = ks.count x := by
  have hx' : alookup x tbk = Option.none := Option.isNone_iff_eq_none.mp hx
  induction ks with
  | nil => rfl
  | cons k ks ih =>
    by_cases hkx : k = x
    · subst hkx
      simp only [List.filterMap_cons, hx', if_pos rfl]
      simp [List.count_cons]
      simpa using ih
    · have hxk : ((x : String) == k) = false := by
        rw [beq_eq_false_iff_ne]
        exact fun hh => hkx hh.symm
      have hpk : (((path, x) : String × String) == (path, k)) = false := by
        rw [beq_eq_false_iff_ne]
        intro hc
        injection hc with h1 h2
        exact hkx h2.symm
      cases h : alookup k tbk with
      | none =>
        simp [List.filterMap_cons, h, List.count_cons, hxk, hpk, hkx]
        simpa using ih
      | some v =>
        simp [List.filterMap_cons, h, List.count_cons, hxk, hkx]
        simpa using ih

theorem count_broken_other (ts : List Track) (q : Playlist) (ppath x : String)
    (hne : q.path ≠ ppath) :
    (q.track_keys.filterMap
        (fun k =>
          if (alookup k (tracksByKey ts)).isNone then some (q.path, k)
          else Option.none)).count (ppath, x) = 0 := by
  rw [List.count_eq_zero]
  intro hmem
  obtain ⟨k, -, hk⟩ := List.mem_filterMap.mp hmem
  split at hk
  · injection hk with hk
    injection hk with h1 h2
    exact hne h1
  · exact absurd hk (by simp)

theorem brokenRows_count_zero (ts : List Track) (rest : List Playlist) (ppath x : String)
    (h : ∀ q ∈ rest, q.path ≠ ppath) :
    (brokenRows ts rest).count (ppath, x) = 0 := by
  induction rest with
  | nil => rfl
  | cons q rest ih =>
    show (_ ++ brokenRows ts rest).count (ppath, x) = 0
    rw [List.count_append, count_broken_other ts q ppath x (h q (List.mem_cons_self q rest)),
      ih (fun q' hq' => h q' (List.mem_cons_of_mem _ hq'))]

theorem countP_orphan (tbk : List (String × Track)) (k : String) (used : List String) :
    ∀ (_ : (tbk.map Prod.fst).Nodup) (_ : (alookup k tbk).isSome = true)
      (_ : k ∉ used),
    ((tbk.filterMap (fun e => if e.1 ∈ used then Option.none else some e)).countP
      (fun r => r.1 == k)) = 1 := by
  induction tbk with
  | nil => intro _ hk _; simp [alookup] at hk
  | cons e rest ih =>
    intro hnd hk hused
    obtain ⟨k', v⟩ := e
    simp only [List.map_cons, List.nodup_cons] at hnd
    by_cases hkk : k' = k
    · subst hkk
      have hrest : (rest.filterMap
          (fun e => if e.1 ∈ used then Option.none else some e)).countP
          (fun r => r.1 == k') = 0 := by
        rw [List.countP_eq_zero]
        intro r hr
        obtain ⟨e', he', hfe⟩ := List.mem_filterMap.mp hr
        split at hfe
        · exact absurd hfe (by simp)
        · injection hfe with hfe
          subst hfe
          simp only [beq_iff_eq]
          intro hc
          exact hnd.1 (hc ▸ List.mem_map_of_mem Prod.fst he')
      simp only [List.filterMap_cons, if_neg hused]
      rw [List.countP_cons]
      simp [hrest]
    · have hk' : (alookup k rest).isSome = true := by
        rw [alookup, if_neg hkk] at hk
        exact hk
      have hb : ((k' : String) == k) = false := by
        rw [beq_eq_false_iff_ne]
        exact hkk
      simp only [List.filterMap_cons]
      split
      · exact ih hnd.2 hk' hused
      · rename_i b heq
        have hbk : b = (k', v) := by
          by_cases hm : k' ∈ used
          · rw [if_pos hm] at heq
            exact absurd heq (by simp)
          · rw [if_neg hm] at heq
            injection heq with heq
            exact heq.symm
        subst hbk
        rw [List.countP_cons]
        have hrec := ih hnd.2 hk' hused
        simp [hb, hrec]

/-- Claim C7 (amended): over a playlist list with distinct paths (as the
de-duplicated parse output guarantees), each occurrence of a member key
bound to no loaded track yields one broken-reference row — so the number
of rows for the pair `(X, playlist path)` equals the number of times that
playlist lists `X`, not always exactly one — and each mapping key (a
non-empty track identifier, last write wins) referenced by no playlist
yields exactly one orphan row. -/
theorem C7_playlist_graph (ts : List Track) (pls : List Playlist)
    (hnd : (pls.map (fun p => p.path)).Nodup)
    (p : Playlist) (hp : p ∈ pls) (x : String)
    (hx : (alookup x (tracksByKey ts)).isNone = true)
    (k : String) (hk : (alookup k (tracksByKey ts)).isSome = true)
    (hused : k ∉ usedKeys pls) :
    (brokenRows ts pls).count (p.path, x) = p.track_keys.count x ∧
    (orphanRows ts pls).countP (fun r => r.1 == k) = 1 := by
  constructor
  · clear hk hused
    induction pls with
    | nil => simp at hp
    | cons q rest ih =>
      simp only [List.map_cons, List.nodup_cons] at hnd
      rcases List.mem_cons.mp hp with rfl | hp'
      · show (_ ++ brokenRows ts rest).count (p.path, x) = _
        rw [List.count_append, count_filterMap_broken (tracksByKey ts) p.path x hx,
          brokenRows_count_zero ts rest p.path x
            (fun q' hq' hc =>
              hnd.1 (by rw [← hc]; exact List.mem_map_of_mem (fun pl => pl.path) hq'))]
        omega
      · show (_ ++ brokenRows ts rest).count (p.path, x) = _
        rw [List.count_append, ih hnd.2 hp',
          count_broken_other ts q p.path x
            (fun hc =>
              hnd.1 (by rw [hc]; exact List.mem_map_of_mem (fun pl => pl.path) hp'))]
        omega
  · exact countP_orphan (tracksByKey ts) k (usedKeys pls)
      (tracksByKey_keys_nodup ts) hk hused

def cexPlaylist : Playlist :=
  { path := "P", name := "P", node_type := "0", entries := 2, track_keys := ["99", "99"] }

/-- Claim C7 counterexample: a playlist listing the unresolvable
identifier `"99"` twice yields two broken-reference findings for the pair
`("99", "P")`, not exactly one. -/
theorem C7_cex :
    (alookup "99" (tracksByKey [])).isNone = true ∧
    (brokenRows [] [cexPlaylist]).count ("P", "99") = 2 := by
  constructor
  · rfl
  · rfl

def orphanTrack : Track := { baseTrack with track_id := "1" }

def witPlaylist : Playlist :=
  { path := "P", name := "P", node_type := "0", entries := 1, track_keys := ["99"] }

/-- Witness for the amended C7 theorem at a concrete universe: one track
`"1"`, one playlist referencing only the missing key `"99"`. -/
theorem C7_witness :
    (brokenRows [orphanTrack] [witPlaylist]).count (witPlaylist.path, "99") =
      witPlaylist.track_keys.count "99" ∧
    (orphanRows [orphanTrack] [witPlaylist]).countP (fun r => r.1 == "1") = 1 :=
  C7_playlist_graph [orphanTrack] [witPlaylist] (by decide) witPlaylist (by decide)
    "99" (by decide) "1" (by decide) (by decide)

/-- Secondary-source record stored per normalized path by `read_mik_csv`
(the source also stores the raw `row`, which no later pass reads). -/
structure MikRec where
  path : String
  bpm : PyFloat
  key : String
deriving DecidableEq

/-- Python's `in` on strings: `pat` occurs as a contiguous substring. -/
def occursIn (pat : List Char) : List Char → Bool
  | [] => pat.isEmpty
  | c :: rest => pat.isPrefixOf (c :: rest) || occursIn pat rest

def pathCands : List String := ["path", "file", "filename", "location", "filepath", "file path"]

def bpmCands : List String := ["bpm", "tempo"]

def keyCands : List String := ["key", "camelot", "tonality"]

/-- `find_col` from `read_mik_csv`: an exact case-insensitive header match
for any candidate first, then a substring match, candidate-major order. -/
def find_col (cols : List String) (cands : List String) : Option String :=
  match cands.findSome? (fun cand => cols.find? (fun c => pyLower c == pyLower cand)) with
  | some c => some c
  | Option.none =>
    cands.findSome?
      (fun cand => cols.find? (fun c => occursIn (pyLower cand).data (pyLower c).data))

/-- `row.get(col, "") or ""`: a missing cell (`None` under `DictReader`)
and an absent column both collapse to `""`. -/
def cellOf (row : List (String × String)) (c : String) : String := (alookup c row).getD ""

/-- `read_mik_csv`: load the secondary table into a mapping keyed by the
lowered normalized path, last write wins. -/
def read_mik_csv (sep : String) (cols : List String)
    (rows : List (List (String × String))) : List (String × MikRec) :=
  let path_col := find_col cols pathCands
  let bpm_col := find_col cols bpmCands
  let key_col := find_col cols keyCands
  rows.foldl
    (fun acc row =>
      let rawp :=
        match path_col with
        | some pc => cellOf row pc
        | Option.none => ""
      let p := pyStrip (pyReplace (pyReplace rawp "/" sep) "\\\\" "\\")
      if p = "" then acc
      else
        dictInsert acc (pyLower p)
          { path := p
            bpm :=
              match bpm_col with
              | some bc => safe_float (.pstr (cellOf row bc)) (.finite 0)
              | Option.none => .finite 0
            key :=
              match key_col with
              | some kc => cellOf row kc
              | Option.none => "" })
    []

/-- `rb_paths` from `analyse`: tracks keyed by lowered normalized path,
skipping tracks with empty paths, last write wins. -/
def rbPathsOf (ts : List Track) : List (String × Track) :=
  ts.foldl
    (fun acc t =>
      if t.location_path = "" then acc else dictInsert acc (pyLower t.location_path) t)
    []

/-- One row of the "MIK Compare" output. -/
structure MikRow where
  status : String
  trackID : String
  artist : String
  title : String
  rbPath : String
  mikPath : String
  rbBPM : PyVal
  mikBPM : PyVal
  rbKey : String
  mikKey : String
deriving DecidableEq

def missingInMikRow (t : Track) : MikRow :=
  { status := "Missing in MIK", trackID := t.track_id, artist := t.artist,
    title := t.name, rbPath := t.location_path, mikPath := "",
    rbBPM := .pfloat t.bpm, mikBPM := .pstr "", rbKey := t.key, mikKey := "" }

/-- First reconciliation pass: primary paths absent from the secondary. -/
def missingInMikRows (rb : List (String × Track)) (mik : List (String × MikRec)) :
    List MikRow :=
  rb.filterMap
    (fun e => if (alookup e.1 mik).isNone then some (missingInMikRow e.2) else Option.none)

def missingInRBRow (m : MikRec) : MikRow :=
  { status := "Missing in Rekordbox", trackID := "", artist := "", title := "",
    rbPath := "", mikPath := m.path, rbBPM := .pstr "", mikBPM := .pfloat m.bpm,
    rbKey := "", mikKey := m.key }

/-- Second reconciliation pass: secondary paths absent from the primary. -/
def missingInRBRows (rb : List (String × Track)) (mik : List (String × MikRec)) :
    List MikRow :=
  mik.filterMap
    (fun e => if (alookup e.1 rb).isNone then some (missingInRBRow e.2) else Option.none)

/-- Python float truthiness: `0.0` is falsy; everything else, including
`nan` and the infinities, is truthy. -/
def PyFloat.truthy : PyFloat → Bool
  | .finite q => !(q.num == 0)
  | _ => true

/-- Subtraction of Python floats; the finite case is computed by
cross-multiplication over `num`/`den`. -/
def PyFloat.sub : PyFloat → PyFloat → PyFloat
  | .nan, _ => .nan
  | _, .nan => .nan
  | .finite a, .finite b =>
    .finite (mkRat (a.num * (b.den : ℤ) - b.num * (a.den : ℤ)) (a.den * b.den))
  | .finite _, .inf n => .inf (!n)
  | .inf n, .finite _ => .inf n
  | .inf a, .inf b => if a = b then .nan else .inf a

/-- `abs` on Python floats. -/
def PyFloat.fabs : PyFloat → PyFloat
  | .finite q => .finite (if q.num < 0 then mkRat (-q.num) q.den else q)
  | .inf _ => .inf false
  | .nan => .nan

/-- `x >= c` for a Python float against a finite constant; comparisons with
`nan` are false; the finite case compares by cross-multiplication. -/
def PyFloat.geB : PyFloat → ℚ → Bool
  | .finite q, c => decide (c.num * (q.den : ℤ) ≤ q.num * (c.den : ℤ))
  | .inf n, _ => !n
  | .nan, _ => false

theorem mkRat_sub (a b : ℚ) :
    mkRat (a.num * (b.den : ℤ) - b.num * (a.den : ℤ)) (a.den * b.den) = a - b := by
  have ha : ((a.den : ℚ)) ≠ 0 := Nat.cast_ne_zero.mpr a.den_ne_zero
  have hb : ((b.den : ℚ)) ≠ 0 := Nat.cast_ne_zero.mpr b.den_ne_zero
  rw [Rat.mkRat_eq_divInt, Rat.divInt_eq_div]
  conv_rhs => rw [← Rat.num_div_den a, ← Rat.num_div_den b]
  rw [div_sub_div _ _ ha hb]
  push_cast
  ring_nf

theorem pyAbs_eq (q : ℚ) : (if q.num < 0 then mkRat (-q.num) q.den else q) = |q| := by
  by_cases h : q.num < 0
  · rw [if_pos h, ← Rat.neg_mkRat, Rat.mkRat_self, abs_of_neg (Rat.num_neg.mp h)]
  · rw [if_neg h, abs_of_nonneg (Rat.num_nonneg.mp (le_of_not_lt h))]

theorem geB_finite (q c : ℚ) : PyFloat.geB (.finite q) c = decide (c ≤ q) := by
  show decide _ = decide _
  rw [decide_eq_decide]
  exact (Rat.le_def).symm

/-- The `status` list of the per-path diff pass: `"BPM diff"` when both
tempos are truthy and differ by at least 0.75, `"Key diff"` when both keys
are non-empty and normalise differently. -/
def diffStatus (t : Track) (m : MikRec) : List String :=
  (if (safe_float (.pfloat m.bpm) (.finite 0)).truthy && t.bpm.truthy &&
      ((safe_float (.pfloat m.bpm) (.finite 0)).sub t.bpm).fabs.geB (mkRat 3 4) then
    ["BPM diff"]
  else []) ++
  (if !(pyStrip m.key == "") && !(t.key == "") &&
      !(norm_key (pyStrip m.key) == norm_key t.key) then
    ["Key diff"]
  else [])

/-- Third reconciliation pass, per primary entry: the diff row when the
path is present in the secondary and some metric drifted. -/
def diffRowFor (mik : List (String × MikRec)) (e : String × Track) : Option MikRow :=
  match alookup e.1 mik with
  | Option.none => Option.none
  | some m =>
    if (diffStatus e.2 m).isEmpty then Option.none
    else
      some
        { status := String.intercalate ", " (diffStatus e.2 m), trackID := e.2.track_id,
          artist := e.2.artist, title := e.2.name, rbPath := e.2.location_path,
          mikPath := m.path, rbBPM := .pfloat e.2.bpm,
          mikBPM := .pfloat (safe_float (.pfloat m.bpm) (.finite 0)),
          rbKey := e.2.key, mikKey := pyStrip m.key }

def diffRows (rb : List (String × Track)) (mik : List (String × MikRec)) : List MikRow :=
  rb.filterMap (diffRowFor mik)

/-- The full "MIK Compare" row set: the three passes in source order. -/
def mikRows (rb : List (String × Track)) (mik : List (String × MikRec)) : List MikRow :=
  missingInMikRows rb mik ++ missingInRBRows rb mik ++ diffRows rb mik

/-- Whether a compare row's status names the tempo metric. -/
def namesBPMDiff (r : MikRow) : Bool :=
  r.status == "BPM diff" || r.status == "BPM diff, Key diff"

/-- Whether a compare row's status names the key metric. -/
def namesKeyDiff (r : MikRow) : Bool :=
  r.status == "Key diff" || r.status == "BPM diff, Key diff"

/-- Claim C1 (amended): the tempo comparison is non-strict (`>=`): for a
path present in both mappings with both tempos finite and non-zero, a
tempo difference exactly equal to the tolerance 0.75 IS reported as
drifted — a metric-drift row naming the tempo metric is produced. -/
theorem C1_bpm_drift_at_tolerance (rb : List (String × Track))
    (mik : List (String × MikRec)) (pth : String) (t : Track) (m : MikRec) (qm qt : ℚ)
    (he : (pth, t) ∈ rb) (hm : alookup pth mik = some m)
    (hqm : m.bpm = .finite qm) (hqt : t.bpm = .finite qt)
    (hm0 : qm ≠ 0) (ht0 : qt ≠ 0) (hd : |qm - qt| = mkRat 3 4) :
    ∃ r ∈ mikRows rb mik, r.rbPath = t.location_path ∧ r.mikPath = m.path ∧
      namesBPMDiff r = true := by
  have hsf : safe_float (.pfloat m.bpm) (.finite 0) = m.bpm := rfl
  have hsub : PyFloat.sub m.bpm t.bpm = .finite (qm - qt) := by
    rw [hqm, hqt]
    show PyFloat.finite (mkRat _ _) = _
    rw [mkRat_sub]
  have habs : (PyFloat.sub m.bpm t.bpm).fabs = .finite (mkRat 3 4) := by
    rw [hsub]
    show PyFloat.finite
        (if (qm - qt).num < 0 then mkRat (-(qm - qt).num) (qm - qt).den else qm - qt) =
      PyFloat.finite (mkRat 3 4)
    rw [pyAbs_eq, hd]
  have hge : (PyFloat.sub m.bpm t.bpm).fabs.geB (mkRat 3 4) = true := by
    rw [habs, geB_finite]
    exact decide_eq_true (le_refl _)
  have htm : m.bpm.truthy = true := by
    rw [hqm]
    simp [PyFloat.truthy, Rat.num_ne_zero.mpr hm0]
  have htt : t.bpm.truthy = true := by
    rw [hqt]
    simp [PyFloat.truthy, Rat.num_ne_zero.mpr ht0]
  have hst : diffStatus t m = "BPM diff" ::
      (if !(pyStrip m.key == "") && !(t.key == "") &&
          !(norm_key (pyStrip m.key) == norm_key t.key) then ["Key diff"] else []) := by
    unfold diffStatus
    rw [hsf, htm, htt, hge]
    simp
  have hne : (diffStatus t m).isEmpty = false := by
    rw [hst]
    rfl
  have hdr : diffRowFor mik (pth, t) = some
      { status := String.intercalate ", " (diffStatus t m), trackID := t.track_id,
        artist := t.artist, title := t.name, rbPath := t.location_path,
        mikPath := m.path, rbBPM := .pfloat t.bpm,
        mikBPM := .pfloat (safe_float (.pfloat m.bpm) (.finite 0)),
        rbKey := t.key, mikKey := pyStrip m.key } := by
    unfold diffRowFor
    rw [hm]
    simp [hne]
  have hrow := List.mem_filterMap.mpr ⟨(pth, t), he, hdr⟩
  refine ⟨_, List.mem_append_right _ hrow, ?_, ?_, ?_⟩
  · rfl
  · rfl
  · show namesBPMDiff _ = true
    unfold namesBPMDiff
    rw [hst]
    cases hcond : (!(pyStrip m.key == "") && !(t.key == "") &&
        !(norm_key (pyStrip m.key) == norm_key t.key)) <;> (simp; try decide)

def cexMikTrack : Track :=
  { baseTrack with track_id := "1", bpm := .finite 128, location_path := "D:\\a.mp3" }

def cexMikRec : MikRec := { path := "D:\\a.mp3", bpm := .finite (mkRat 515 4), key := "" }

/-- Claim C1 counterexample: with primary tempo 128.0 and secondary tempo
128.75 — a difference exactly equal to the 0.75 tolerance — the compare
pass DOES produce a row whose status names the tempo metric, because the
source compares with `>=`, not strict `>`. -/
theorem C1_cex :
    (mikRows [("d:\\a.mp3", cexMikTrack)] [("d:\\a.mp3", cexMikRec)]).filter
      namesBPMDiff =
      [{ status := "BPM diff", trackID := "1", artist := "", title := "",
         rbPath := "D:\\a.mp3", mikPath := "D:\\a.mp3",
         rbBPM := .pfloat (.finite 128), mikBPM := .pfloat (.finite (mkRat 515 4)),
         rbKey := "", mikKey := "" }] := by
  rfl

/-- Witness for the amended C1 theorem at the concrete 128.0 / 128.75
pair. -/
theorem C1_witness :
    ∃ r ∈ mikRows [("d:\\a.mp3", cexMikTrack)] [("d:\\a.mp3", cexMikRec)],
      r.rbPath = cexMikTrack.location_path ∧ r.mikPath = cexMikRec.path ∧
        namesBPMDiff r = true :=
  C1_bpm_drift_at_tolerance [("d:\\a.mp3", cexMikTrack)] [("d:\\a.mp3", cexMikRec)]
    "d:\\a.mp3" cexMikTrack cexMikRec (mkRat 515 4) 128 (by simp) (by rfl) (by rfl)
    (by rfl) (by decide) (by norm_num)
    (by
      have h1 : (mkRat 515 4 : ℚ) = 515 / 4 := by
        rw [Rat.mkRat_eq_divInt, Rat.divInt_eq_div]
        norm_num
      have h2 : (mkRat 3 4 : ℚ) = 3 / 4 := by
        rw [Rat.mkRat_eq_divInt, Rat.divInt_eq_div]
        norm_num
      rw [h1, h2, show (515 : ℚ) / 4 - 128 = 3 / 4 by norm_num,
        abs_of_nonneg (by norm_num : (0 : ℚ) ≤ 3 / 4)])

theorem isPrefixOf_self (l : List Char) : l.isPrefixOf l = true := by
  induction l with
  | nil => rfl
  | cons c l ih => simp [List.isPrefixOf, ih]

theorem occursIn_self (l : List Char) : occursIn l l = true := by
  cases l with
  | nil => rfl
  | cons c l => simp [occursIn, isPrefixOf_self]

/-- When no header contains (hence none equals) a candidate, column
detection fails. -/
theorem find_col_none (cols cands : List String)
    (h : ∀ c ∈ cols, ∀ cand ∈ cands,
        occursIn (pyLower cand).data (pyLower c).data = false) :
    find_col cols cands = Option.none := by
  have h1 : ∀ cand ∈ cands,
      cols.find? (fun c => pyLower c == pyLower cand) = Option.none := by
    intro cand hcand
    rw [List.find?_eq_none]
    intro c hc hbeq
    have heq : pyLower c = pyLower cand := by simpa using hbeq
    have hoc := h c hc cand hcand
    rw [← heq, occursIn_self] at hoc
    exact absurd hoc (by simp)
  have h2 : ∀ cand ∈ cands,
      cols.find? (fun c => occursIn (pyLower cand).data (pyLower c).data) =
        Option.none := by
    intro cand hcand
    rw [List.find?_eq_none]
    intro c hc hbeq
    rw [h c hc cand hcand] at hbeq
    exact absurd hbeq (by simp)
  unfold find_col
  rw [List.findSome?_eq_none_iff.mpr h1]
  rw [List.findSome?_eq_none_iff.mpr h2]

theorem filterMap_always_some (f : α → β) (g : α → Option β) (l : List α)
    (hg : ∀ a, g a = some (f a)) : l.filterMap g = l.map f := by
  induction l with
  | nil => rfl
  | cons a l ih => rw [List.filterMap_cons, hg, List.map_cons, ih]

theorem filterMap_always_none (g : α → Option β) (l : List α)
    (hg : ∀ a, g a = Option.none) : l.filterMap g = [] := by
  induction l with
  | nil => rfl
  | cons a l ih => rw [List.filterMap_cons, hg, ih]

theorem foldl_congr_id {f : β → α → β} (l : List α) :
    ∀ acc, (∀ acc x, f acc x = acc) → l.foldl f acc = acc := by
  induction l with
  | nil => intro acc _; rfl
  | cons x l ih =>
    intro acc h
    rw [List.foldl_cons, h]
    exact ih acc h

theorem mikRows_empty_secondary (rb : List (String × Track)) :
    mikRows rb [] = rb.map (fun e => missingInMikRow e.2) := by
  have h1 : missingInMikRows rb [] = rb.map (fun e => missingInMikRow e.2) :=
    filterMap_always_some (fun (e : String × Track) => missingInMikRow e.2)
      (fun (e : String × Track) =>
        if (alookup e.1 ([] : List (String × MikRec))).isNone then
          some (missingInMikRow e.2)
        else Option.none)
      rb (fun a => rfl)
  have h3 : diffRows rb [] = [] :=
    filterMap_always_none (diffRowFor []) rb (fun a => rfl)
  unfold mikRows
  rw [h1, h3]
  show _ ++ [] ++ [] = _
  simp

/-- Claim C2 (amended): when no header matches or contains any path-like
candidate name, the loader returns an empty mapping — no warning exists in
the code — and the cross-source pass still runs: it produces exactly one
"Missing in MIK" finding per primary-path entry (and nothing from the
other two passes), rather than producing no findings. -/
theorem C2_unusable_secondary (sep : String) (cols : List String)
    (rows : List (List (String × String))) (tracks : List Track)
    (h : ∀ c ∈ cols, ∀ cand ∈ pathCands,
        occursIn (pyLower cand).data (pyLower c).data = false) :
    read_mik_csv sep cols rows = [] ∧
    mikRows (rbPathsOf tracks) (read_mik_csv sep cols rows) =
      (rbPathsOf tracks).map (fun e => missingInMikRow e.2) := by
  have hfind := find_col_none cols pathCands h
  have hempty : read_mik_csv sep cols rows = [] := by
    unfold read_mik_csv
    rw [hfind]
    apply foldl_congr_id
    intro acc row
    rfl
  exact ⟨hempty, by rw [hempty]; exact mikRows_empty_secondary (rbPathsOf tracks)⟩

def cexCols : List String := ["Foo", "Bar"]

def cexC2Track : Track :=
  { baseTrack with track_id := "1", location_path := "D:\\a.mp3" }

/-- Claim C2 counterexample: with headers `Foo, Bar` (no path-like column)
the run does not skip reconciliation with zero findings — it produces a
"Missing in MIK" finding for the primary track. -/
theorem C2_cex :
    find_col cexCols pathCands = Option.none ∧
    mikRows (rbPathsOf [cexC2Track]) (read_mik_csv "\\" cexCols [[("Foo", "x")]]) =
      [missingInMikRow cexC2Track] := by
  constructor
  · rfl
  · rfl

/-- Witness for the amended C2 theorem at the concrete header list. -/
theorem C2_witness :
    read_mik_csv "\\" cexCols [[("Foo", "x")]] = [] ∧
    mikRows (rbPathsOf [cexC2Track]) (read_mik_csv "\\" cexCols [[("Foo", "x")]]) =
      (rbPathsOf [cexC2Track]).map (fun e => missingInMikRow e.2) :=
  C2_unusable_secondary "\\" cexCols [[("Foo", "x")]] [cexC2Track] (by decide)

/-- Claim C10: the tempo comparison is silently skipped when either side's
tempo is the 0.0 unknown-value default, the key comparison is silently
skipped when either side's key is empty, a pair with both metrics missing
or defaulted yields no diff row at all, and the missing-track passes only
carry the two "Missing in ..." statuses — so such a pair never produces a
metric-drift finding. -/
theorem C10_defaulted_metrics_skipped (rb : List (String × Track))
    (mik : List (String × MikRec)) (pth : String) (t : Track) (m : MikRec)
    (hm : alookup pth mik = some m) :
    ((t.bpm = .finite 0 ∨ m.bpm = .finite 0) → "BPM diff" ∉ diffStatus t m) ∧
    ((t.key = "" ∨ pyStrip m.key = "") → "Key diff" ∉ diffStatus t m) ∧
    ((t.bpm = .finite 0 ∨ m.bpm = .finite 0) → (t.key = "" ∨ pyStrip m.key = "") →
      diffRowFor mik (pth, t) = Option.none) ∧
    (∀ r ∈ missingInMikRows rb mik ++ missingInRBRows rb mik,
      r.status = "Missing in MIK" ∨ r.status = "Missing in Rekordbox") := by
  have htr0 : PyFloat.truthy (.finite 0) = false := by
    simp [PyFloat.truthy, Rat.num_zero]
  have hsf : safe_float (.pfloat m.bpm) (.finite 0) = m.bpm := rfl
  have hbpmcond : (t.bpm = .finite 0 ∨ m.bpm = .finite 0) →
      ((safe_float (.pfloat m.bpm) (.finite 0)).truthy && t.bpm.truthy &&
        ((safe_float (.pfloat m.bpm) (.finite 0)).sub t.bpm).fabs.geB (mkRat 3 4)) =
        false := by
    intro hz
    rw [hsf]
    rcases hz with hz | hz <;> rw [hz, htr0] <;> simp
  have hkeycond : (t.key = "" ∨ pyStrip m.key = "") →
      (!(pyStrip m.key == "") && !(t.key == "") &&
        !(norm_key (pyStrip m.key) == norm_key t.key)) = false := by
    intro hz
    rcases hz with hz | hz <;> rw [hz] <;> simp
  have hbpm : (t.bpm = .finite 0 ∨ m.bpm = .finite 0) → "BPM diff" ∉ diffStatus t m := by
    intro hz
    unfold diffStatus
    rw [hbpmcond hz]
    intro hc
    rcases List.mem_append.mp hc with h | h
    · simp at h
    · revert h
      split <;> decide
  have hkey : (t.key = "" ∨ pyStrip m.key = "") → "Key diff" ∉ diffStatus t m := by
    intro hz
    unfold diffStatus
    rw [hkeycond hz]
    intro hc
    rcases List.mem_append.mp hc with h | h
    · revert h
      split <;> decide
    · simp at h
  refine ⟨hbpm, hkey, ?_, ?_⟩
  · intro hz hk
    have hempty : diffStatus t m = [] := by
      unfold diffStatus
      rw [hbpmcond hz, hkeycond hk]
      simp
    unfold diffRowFor
    rw [hm]
    simp [hempty]
  · intro r hr
    rcases List.mem_append.mp hr with hr | hr
    · obtain ⟨e, -, he⟩ := List.mem_filterMap.mp hr
      split at he
      · injection he with he
        exact Or.inl (by rw [← he]; rfl)
      · exact absurd he (by simp)
    · obtain ⟨e, -, he⟩ := List.mem_filterMap.mp hr
      split at he
      · injection he with he
        exact Or.inr (by rw [← he]; rfl)
      · exact absurd he (by simp)

def c10Track : Track := { baseTrack with track_id := "1", location_path := "D:\\a.mp3" }

def c10Rec : MikRec := { path := "D:\\a.mp3", bpm := .finite 128, key := "8A" }

/-- Witness for C10 at a concrete pair whose primary tempo is the 0.0
default and whose primary key is empty: the diff pass emits nothing. -/
theorem C10_witness :
    diffRowFor [("d:\\a.mp3", c10Rec)] ("d:\\a.mp3", c10Track) = Option.none :=
  (C10_defaulted_metrics_skipped [] [("d:\\a.mp3", c10Rec)] "d:\\a.mp3" c10Track c10Rec
    (by rfl)).2.2.1 (Or.inl rfl) (Or.inl rfl)

/-- Claim C4 (amended): normalization is idempotent on every input whose
normalized output is whitespace-trimmed and does not itself start
(case-insensitively) with `file:`; a file URL whose percent-decoded path
carries trailing whitespace (e.g. `file:///D:/a%20`) escapes this and is
not a fixed point. -/
theorem C4_normalize_idem (sep p : String)
    (h1 : pyStrip (fileurl_to_path sep p) = fileurl_to_path sep p)
    (h2 : pyStartsWithB (pyLower (fileurl_to_path sep p)) "file:" = false) :
    fileurl_to_path sep (fileurl_to_path sep p) = fileurl_to_path sep p := by
  set q := fileurl_to_path sep p with hq
  by_cases hempty : q = ""
  · rw [hempty]
    rfl
  · show fileurl_to_path sep q = q
    unfold fileurl_to_path
    rw [if_neg hempty]
    simp only [h1, h2]
    simp

/-- Claim C4 counterexample: `file:///D:/a%20` normalizes to a string with
a trailing space, which a second normalization strips, so normalization is
not idempotent on all path strings. -/
theorem C4_cex :
    fileurl_to_path "\\" (fileurl_to_path "\\" "file:///D:/a%20") ≠
      fileurl_to_path "\\" "file:///D:/a%20" := by
  decide

/-- Witness for the amended C4 theorem at a concrete file URL. -/
theorem C4_witness :
    fileurl_to_path "\\" (fileurl_to_path "\\" "file:///D:/Music/x.mp3") =
      fileurl_to_path "\\" "file:///D:/Music/x.mp3" :=
  C4_normalize_idem "\\" "file:///D:/Music/x.mp3" (by decide) (by decide)

theorem safe_int_eq (v : PyVal) (d : ℤ) : safe_int v d = (intResult v).getD d := by
  cases v with
  | pnone => rfl
  | pint n => rfl
  | pfloat f => cases f <;> rfl
  | pstr s =>
    simp only [safe_int, intResult]
    by_cases h : pyStrip s = ""
    · rw [if_pos h, h]
      rfl
    · rw [if_neg h]
      cases hp : pyFloatParse (pyStrip s) with
      | none => rfl
      | some f => cases f <;> rfl

theorem safe_float_eq (v : PyVal) (df : PyFloat) :
    safe_float v df = (floatResult v).getD df := by
  cases v with
  | pnone => rfl
  | pint n => rfl
  | pfloat f => rfl
  | pstr s =>
    simp only [safe_float, floatResult]
    by_cases h : pyStrip s = ""
    · rw [if_pos h, h]
      rfl
    · rw [if_neg h]

/-- Claim C8: the defensive numeric parse helpers are total — they return
the parsed number when Python's conversion yields one and the documented
default (0 for integers, 0.0 for floats) otherwise — and every numeric
field of a materialised track equals parse-or-default of its attribute, so
per-track materialisation never fails. -/
theorem C8_defensive_coercion (v : PyVal) (d : ℤ) (df : PyFloat)
    (sep : String) (a : List (String × String)) :
    safe_int v d = (intResult v).getD d ∧
    safe_float v df = (floatResult v).getD df ∧
    (mkTrack sep a).year = (intResult (attrVal a "Year")).getD 0 ∧
    (mkTrack sep a).bpm = (floatResult (attrValF a "AverageBpm")).getD (.finite 0) ∧
    (mkTrack sep a).size = (intResult (attrVal a "Size")).getD 0 ∧
    (mkTrack sep a).duration = (intResult (attrVal a "TotalTime")).getD 0 ∧
    (mkTrack sep a).bitrate = (intResult (attrVal a "BitRate")).getD 0 ∧
    (mkTrack sep a).samplerate = (intResult (attrVal a "SampleRate")).getD 0 ∧
    (mkTrack sep a).playcount = (intResult (attrVal a "PlayCount")).getD 0 := by
  refine ⟨safe_int_eq v d, safe_float_eq v df, ?_, ?_, ?_, ?_, ?_, ?_, ?_⟩
  · exact safe_int_eq (attrVal a "Year") 0
  · exact safe_float_eq (attrValF a "AverageBpm") (.finite 0)
  · exact safe_int_eq (attrVal a "Size") 0
  · exact safe_int_eq (attrVal a "TotalTime") 0
  · exact safe_int_eq (attrVal a "BitRate") 0
  · exact safe_int_eq (attrVal a "SampleRate") 0
  · exact safe_int_eq (attrVal a "PlayCount") 0

/-- `dropWhile` is the identity when the predicate holds nowhere. -/
theorem dropWhile_eq_self_of (p : Char → Bool) (l : List Char)
    (h : ∀ c ∈ l, p c = false) : l.dropWhile p = l := by
  cases l with
  | nil => rfl
  | cons a t => simp [List.dropWhile_cons, h a (by simp)]

/-- `str.strip()` is the identity on a list with no whitespace character. -/
theorem pyStripChars_eq_self (l : List Char) (h : ∀ c ∈ l, pyWs c = false) :
    pyStripChars l = l := by
  unfold pyStripChars
  rw [dropWhile_eq_self_of _ _ h, dropWhile_eq_self_of _ _ (by simpa using h),
    List.reverse_reverse]

/-- `splitFirst` finds nothing when the character is absent. -/
theorem splitFirst_eq_none (c : Char) (l : List Char) (h : c ∉ l) :
    splitFirst c l = Option.none := by
  induction l with
  | nil => rfl
  | cons a t ih =>
    simp only [List.mem_cons, not_or] at h
    have h1 : ¬a = c := fun hh => h.1 hh.symm
    simp [splitFirst, h1, ih h.2]

/-- `cutAt` is the identity when the character is absent. -/
theorem cutAt_eq_self (c : Char) (l : List Char) (h : c ∉ l) :
    cutAt c l = l := by
  unfold cutAt
  rw [splitFirst_eq_none c l h]

/-- `cutParams` is the identity when no semicolon occurs. -/
theorem cutParams_eq_self (l : List Char) (h : ';' ∉ l) :
    cutParams l = l := by
  unfold cutParams
  split
  · have hs : ';' ∉ (l.reverse.takeWhile (fun c => c ≠ '/')).reverse := by
      intro hm
      exact h (by
        have := (List.takeWhile_sublist (fun c => c ≠ '/')).mem (List.mem_reverse.mp hm)
        exact List.mem_reverse.mp this)
    rw [if_neg (by simpa using hs)]
  · rw [if_neg (by simpa using h)]



/-- A character above the control/space range is not Python whitespace. -/
theorem pyWs_false_of_gt {c : Char} (h : 0x20 < c.toNat) : pyWs c = false := by
  have h1 : c ≠ ' ' := by rintro rfl; exact absurd h (by decide)
  have h2 : c ≠ '\t' := by rintro rfl; exact absurd h (by decide)
  have h3 : c ≠ '\n' := by rintro rfl; exact absurd h (by decide)
  have h4 : c ≠ '\r' := by rintro rfl; exact absurd h (by decide)
  have h5 : c ≠ '\x0b' := by rintro rfl; exact absurd h (by decide)
  have h6 : c ≠ '\x0c' := by rintro rfl; exact absurd h (by decide)
  simp [pyWs, h1, h2, h3, h4, h5, h6]

/-- With no `%` present, `unquote`'s tokeniser yields only literals. -/
theorem uqTokensF_map_lit : ∀ (fuel : Nat) (l : List Char), l.length ≤ fuel →
    '%' ∉ l → uqTokensF fuel l = l.map UqTok.lit := by
  intro fuel
  induction fuel with
  | zero =>
    intro l hl _
    cases l with
    | nil => rfl
    | cons c r => simp at hl
  | succ n ih =>
    intro l hl hp
    match l with
    | [] => rfl
    | c :: r =>
      simp only [List.mem_cons, not_or] at hp
      have hc : ¬c = '%' := fun hh => hp.1 hh.symm
      have hr := ih r (by simpa using Nat.le_of_succ_le_succ hl) hp.2
      cases r with
      | nil => simp [uqTokensF, hc]
      | cons c1 r1 =>
        cases r1 with
        | nil => simp [uqTokensF, hc, hr]
        | cons c2 r2 => simp [uqTokensF, hc, hr]

/-- `unquote`'s emitter is the identity on literal tokens. -/
theorem uqEmitF_map_lit : ∀ (fuel : Nat) (l : List Char), l.length ≤ fuel →
    uqEmitF fuel (l.map UqTok.lit) = l := by
  intro fuel
  induction fuel with
  | zero =>
    intro l hl
    cases l with
    | nil => rfl
    | cons c r => simp at hl
  | succ n ih =>
    intro l hl
    cases l with
    | nil => rfl
    | cons c r =>
      simp [uqEmitF, ih r (by simpa using Nat.le_of_succ_le_succ hl)]

/-- `urllib.parse.unquote` is the identity on a string with no `%`. -/
theorem pyUnquote_no_pct (l : List Char) (h : '%' ∉ l) :
    pyUnquote ⟨l⟩ = ⟨l⟩ := by
  unfold pyUnquote uqEmit uqTokens
  rw [uqTokensF_map_lit l.length l le_rfl h]
  rw [List.length_map, uqEmitF_map_lit l.length l le_rfl]

/-- Single-character `str.replace` is a pointwise map. -/
theorem replaceCoreF_single (p r : Char) : ∀ (fuel : Nat) (l : List Char),
    l.length ≤ fuel →
    replaceCoreF p [] [r] fuel l = l.map (fun c => if c = p then r else c) := by
  intro fuel
  induction fuel with
  | zero =>
    intro l hl
    cases l with
    | nil => rfl
    | cons c t => simp at hl
  | succ n ih =>
    intro l hl
    cases l with
    | nil => rfl
    | cons c t =>
      have ht := ih t (by simpa using Nat.le_of_succ_le_succ hl)
      by_cases hc : c = p
      · subst hc
        simp [replaceCoreF, List.isPrefixOf, ht]
      · have hc' : (p == c) = false := by
          simp [beq_eq_false_iff_ne]
          exact fun hh => hc hh.symm
        simp [replaceCoreF, List.isPrefixOf, hc', ht, hc]



/-- Characters above the control range that carry no URL syntax: not `%`,
`#`, `?` or `;` (the forward slash is allowed). -/
def plainChar (c : Char) : Bool :=
  0x20 < c.toNat && c ≠ '%' && c ≠ '#' && c ≠ '?' && c ≠ ';'

/-- Distinct characters under the whitespace classifier are distinct. -/
theorem ne_of_pyWs_false {c k : Char} (h : pyWs c = false) (hk : pyWs k = true) :
    c ≠ k := by
  rintro rfl
  rw [h] at hk
  cases hk

/-- A string whose second character is `:` never starts with `file:`
(case-insensitively). -/
theorem startsWith_file_false (x : Char) (t : List Char) :
    pyStartsWithB (pyLower ⟨x :: ':' :: t⟩) "file:" = false := by
  have h : pyStartsWithB (pyLower ⟨x :: ':' :: t⟩) "file:" =
      (('f' == Char.toLower x) && false) := rfl
  rw [h, Bool.and_false]

/-- Claim C5: the file-URL form `file:///<drive>:/<path>` and the plain
backslash form `<drive>:\\<path>` of the same path (drive letter plus
URL-plain path characters, with `/` and `\\` as separators) normalise to
identical output strings under `fileurl_to_path` with the Windows
separator. -/
theorem C5_same_path_encodings (d : Char) (hd : asciiAlpha d = true)
    (rest : List Char) (hrest : ∀ c ∈ rest, plainChar c = true) :
    fileurl_to_path "\\" ⟨'f' :: 'i' :: 'l' :: 'e' :: ':' :: '/' :: '/' :: '/' :: d :: ':' :: '/' :: rest⟩ =
    fileurl_to_path "\\" ⟨d :: ':' :: '\\' :: rest.map (fun c => if c = '/' then '\\' else c)⟩ := by
  -- facts about the drive letter
  have hdk : ∀ k : Char, asciiAlpha k = false → d ≠ k := by
    intro k hk he
    subst he
    rw [hd] at hk
    cases hk
  have hdws : pyWs d = false := by
    simp [pyWs, hdk ' ' (by decide), hdk '\t' (by decide), hdk '\n' (by decide),
      hdk '\r' (by decide), hdk '\x0b' (by decide), hdk '\x0c' (by decide)]
  have hdsl : d ≠ '/' := hdk '/' (by decide)
  -- facts about the tail characters
  have hgt : ∀ c ∈ rest, 0x20 < c.toNat := by
    intro c hc
    have h := hrest c hc
    simp [plainChar] at h
    exact h.1.1.1.1
  have hws : ∀ c ∈ rest, pyWs c = false := fun c hc => pyWs_false_of_gt (hgt c hc)
  have hpct : '%' ∉ rest := fun hm => absurd (hrest _ hm) (by decide)
  have hhsh : '#' ∉ rest := fun hm => absurd (hrest _ hm) (by decide)
  have hqm : '?' ∉ rest := fun hm => absurd (hrest _ hm) (by decide)
  have hsemi : ';' ∉ rest := fun hm => absurd (hrest _ hm) (by decide)
  -- whitespace-freedom of both raw strings
  have hwsL : ∀ c ∈ ('f' :: 'i' :: 'l' :: 'e' :: ':' :: '/' :: '/' :: '/' :: d :: ':' :: '/' :: rest),
      pyWs c = false := by
    intro c hc
    simp only [List.mem_cons] at hc
    rcases hc with rfl | rfl | rfl | rfl | rfl | rfl | rfl | rfl | rfl | rfl | rfl | hc
    all_goals first
      | decide
      | exact hdws
      | exact hws _ hc
  have hwsR : ∀ c ∈ (d :: ':' :: '\\' :: rest.map (fun c => if c = '/' then '\\' else c)),
      pyWs c = false := by
    intro c hc
    simp only [List.mem_cons, List.mem_map] at hc
    rcases hc with rfl | rfl | rfl | ⟨c', hc', rfl⟩
    · exact hdws
    · decide
    · decide
    · by_cases h : c' = '/'
      · simp only [if_pos h]
        decide
      · simp only [if_neg h]
        exact hws _ hc'
  have hstripL : pyStrip ⟨'f' :: 'i' :: 'l' :: 'e' :: ':' :: '/' :: '/' :: '/' :: d :: ':' :: '/' :: rest⟩ =
      ⟨'f' :: 'i' :: 'l' :: 'e' :: ':' :: '/' :: '/' :: '/' :: d :: ':' :: '/' :: rest⟩ := by
    show (⟨pyStripChars ('f' :: 'i' :: 'l' :: 'e' :: ':' :: '/' :: '/' :: '/' :: d :: ':' :: '/' :: rest)⟩ : String) = _
    rw [pyStripChars_eq_self _ hwsL]
  have hstripR : pyStrip ⟨d :: ':' :: '\\' :: rest.map (fun c => if c = '/' then '\\' else c)⟩ =
      ⟨d :: ':' :: '\\' :: rest.map (fun c => if c = '/' then '\\' else c)⟩ := by
    show (⟨pyStripChars (d :: ':' :: '\\' :: rest.map (fun c => if c = '/' then '\\' else c))⟩ : String) = _
    rw [pyStripChars_eq_self _ hwsR]
  -- the two raw strings are non-empty
  have hLne : (⟨'f' :: 'i' :: 'l' :: 'e' :: ':' :: '/' :: '/' :: '/' :: d :: ':' :: '/' :: rest⟩ : String) ≠ "" := by
    intro h
    exact List.noConfusion (congrArg String.data h :
      ('f' :: 'i' :: 'l' :: 'e' :: ':' :: '/' :: '/' :: '/' :: d :: ':' :: '/' :: rest) = ([] : List Char))
  have hRne : (⟨d :: ':' :: '\\' :: rest.map (fun c => if c = '/' then '\\' else c)⟩ : String) ≠ "" := by
    intro h
    exact List.noConfusion (congrArg String.data h :
      (d :: ':' :: '\\' :: rest.map (fun c => if c = '/' then '\\' else c)) = ([] : List Char))
  -- the URL split of the file-URL form
  have hnh : '#' ∉ ('/' :: d :: ':' :: '/' :: rest) := by
    simp only [List.mem_cons, not_or]
    exact ⟨by decide, fun h => hdk '#' (by decide) h.symm, by decide, by decide, hhsh⟩
  have hnq : '?' ∉ ('/' :: d :: ':' :: '/' :: rest) := by
    simp only [List.mem_cons, not_or]
    exact ⟨by decide, fun h => hdk '?' (by decide) h.symm, by decide, by decide, hqm⟩
  have hns : ';' ∉ ('/' :: d :: ':' :: '/' :: rest) := by
    simp only [List.mem_cons, not_or]
    exact ⟨by decide, fun h => hdk ';' (by decide) h.symm, by decide, by decide, hsemi⟩
  have hnp : '%' ∉ ('/' :: d :: ':' :: '/' :: rest) := by
    simp only [List.mem_cons, not_or]
    exact ⟨by decide, fun h => hdk '%' (by decide) h.symm, by decide, by decide, hpct⟩
  have hfil : ('f' :: 'i' :: 'l' :: 'e' :: ':' :: '/' :: '/' :: '/' :: d :: ':' :: '/' :: rest).filter
      (fun c => c ≠ '\t' && c ≠ '\r' && c ≠ '\n') =
      ('f' :: 'i' :: 'l' :: 'e' :: ':' :: '/' :: '/' :: '/' :: d :: ':' :: '/' :: rest) := by
    rw [List.filter_eq_self]
    intro a ha
    have hw := hwsL a ha
    simp [ne_of_pyWs_false hw (by decide : pyWs '\t' = true),
      ne_of_pyWs_false hw (by decide : pyWs '\r' = true),
      ne_of_pyWs_false hw (by decide : pyWs '\n' = true)]
  have hnlp : urlNetlocPath ⟨'f' :: 'i' :: 'l' :: 'e' :: ':' :: '/' :: '/' :: '/' :: d :: ':' :: '/' :: rest⟩ =
      ("", ⟨'/' :: d :: ':' :: '/' :: rest⟩) := by
    simp only [urlNetlocPath]
    rw [hfil]
    rw [show ('f' :: 'i' :: 'l' :: 'e' :: ':' :: '/' :: '/' :: '/' :: d :: ':' :: '/' :: rest).dropWhile
      (fun c => c.toNat ≤ 0x20) =
      ('f' :: 'i' :: 'l' :: 'e' :: ':' :: '/' :: '/' :: '/' :: d :: ':' :: '/' :: rest) from rfl]
    rw [show dropScheme ('f' :: 'i' :: 'l' :: 'e' :: ':' :: '/' :: '/' :: '/' :: d :: ':' :: '/' :: rest) =
      ('/' :: '/' :: '/' :: d :: ':' :: '/' :: rest) from rfl]
    rw [show netlocSplit ('/' :: '/' :: '/' :: d :: ':' :: '/' :: rest) =
      ([], '/' :: d :: ':' :: '/' :: rest) from rfl]
    rw [cutAt_eq_self '#' _ hnh, cutAt_eq_self '?' _ hnq, cutParams_eq_self _ hns]
  -- percent-decoding is the identity here
  have hunq : pyUnquote ⟨'/' :: d :: ':' :: '/' :: rest⟩ = ⟨'/' :: d :: ':' :: '/' :: rest⟩ :=
    pyUnquote_no_pct _ hnp
  -- the scheme check and the drive-letter match
  have hswL : pyStartsWithB
      (pyLower ⟨'f' :: 'i' :: 'l' :: 'e' :: ':' :: '/' :: '/' :: '/' :: d :: ':' :: '/' :: rest⟩)
      "file:" = true := rfl
  have hdm : driveMatch ('/' :: d :: ':' :: '/' :: rest) = true := hd
  -- separator replacement is a pointwise map
  have hrep : pyReplace ⟨d :: ':' :: '/' :: rest⟩ "/" "\\" =
      ⟨d :: ':' :: '\\' :: rest.map (fun c => if c = '/' then '\\' else c)⟩ := by
    show (⟨replaceCore '/' [] ['\\'] (d :: ':' :: '/' :: rest)⟩ : String) = _
    unfold replaceCore
    rw [replaceCoreF_single '/' '\\' _ _ le_rfl]
    simp only [List.map_cons]
    rw [if_neg hdsl]
    simp
  -- the file-URL form normalises to the backslash form
  have hL : fileurl_to_path "\\"
      ⟨'f' :: 'i' :: 'l' :: 'e' :: ':' :: '/' :: '/' :: '/' :: d :: ':' :: '/' :: rest⟩ =
      ⟨d :: ':' :: '\\' :: rest.map (fun c => if c = '/' then '\\' else c)⟩ := by
    simp only [fileurl_to_path]
    rw [if_neg hLne, hstripL]
    rw [if_neg (show ¬((!pyStartsWithB
      (pyLower ⟨'f' :: 'i' :: 'l' :: 'e' :: ':' :: '/' :: '/' :: '/' :: d :: ':' :: '/' :: rest⟩)
      "file:") = true) from by rw [hswL]; decide)]
    rw [hnlp]
    dsimp only
    simp only [if_neg (show ¬((decide (("" : String) ≠ "") &&
      decide (pyLower ("" : String) ≠ "localhost")) = true) from by decide)]
    simp only [hunq]
    rw [if_pos hdm]
    simp only [List.drop_succ_cons, List.drop_zero]
    exact hrep
  -- the backslash form is left unchanged
  have hR : fileurl_to_path "\\"
      ⟨d :: ':' :: '\\' :: rest.map (fun c => if c = '/' then '\\' else c)⟩ =
      ⟨d :: ':' :: '\\' :: rest.map (fun c => if c = '/' then '\\' else c)⟩ := by
    simp only [fileurl_to_path]
    rw [if_neg hRne, hstripR]
    rw [if_pos (show (!pyStartsWithB
      (pyLower ⟨d :: ':' :: '\\' :: rest.map (fun c => if c = '/' then '\\' else c)⟩)
      "file:") = true from by rw [startsWith_file_false]; decide)]
  exact hL.trans hR.symm



theorem C5_witness :
    asciiAlpha 'D' = true ∧ (∀ c ∈ "Music/a.mp3".data, plainChar c = true) ∧
    fileurl_to_path "\\"
      ⟨'f' :: 'i' :: 'l' :: 'e' :: ':' :: '/' :: '/' :: '/' :: 'D' :: ':' :: '/' :: "Music/a.mp3".data⟩ =
    fileurl_to_path "\\"
      ⟨'D' :: ':' :: '\\' :: "Music/a.mp3".data.map (fun c => if c = '/' then '\\' else c)⟩ :=
  ⟨by decide, by decide, C5_same_path_encodings 'D' (by decide) _ (by decide)⟩


end Rekordbox
